import Mathlib

/-!
Verification of the round-robin pairing engine (`src/models/pairing.py`).

The Python class `Pairing` is shallowly embedded: its mutable state becomes
the structure `Pairing`, every method becomes a pure function that threads
that state explicitly, and every Python operation that can raise
(`int(...)` on a malformed string, `list.pop()` on an empty list, indexing a
missing `split` field) is modelled with `Option`, `none` standing for the
raised exception.  Methods that can *both* raise and legitimately return
`None` (the scan `try_to_generate_next_round` and
`generate_next_round_from_ranking`) return `Option (Option Config × Pairing)`:
the outer `none` is an escaped exception, `some (none, p)` is Python's
`return None` with the engine state `p`, and `some (some c, p)` is a
successfully returned configuration.
-/

namespace ChessPairing

/-- A match: a pair of player identifier strings, stored canonically
(sorted by the players' numeric indices). Python represents it as a
2-tuple of strings. -/
abbrev Match := String × String

/-- A configuration: the Python `Set[Tuple[str, str]]` of one round's matches. -/
abbrev Config := Finset Match

/-- Python `int(s)` on a character list, restricted to the ASCII strings the
program feeds it: surrounding whitespace is stripped, an optional single
sign is accepted, and the remainder must be a nonempty run of decimal
digits; otherwise `int` raises `ValueError` (`none`).  (Character lists are
used instead of `String` operations so that proofs can evaluate.) -/
def py_int_chars (cs : List Char) : Option Int :=
  let t := ((cs.dropWhile Char.isWhitespace).reverse.dropWhile
    Char.isWhitespace).reverse
  let sgn : Int :=
    match t with
    | '-' :: _ => -1
    | _ => 1
  let ds : List Char :=
    match t with
    | '-' :: rest => rest
    | '+' :: rest => rest
    | rest => rest
  if !ds.isEmpty && ds.all Char.isDigit then
    some (sgn * (ds.foldl (fun acc c => acc * 10 + (c.toNat - 48)) (0 : Nat) : Nat))
  else
    none

/-- Python `int(s)` on a string. -/
def py_int (s : String) : Option Int := py_int_chars s.toList

/-- Python `str.split(sep)` for a one-character separator, on character
lists: `"".split` gives `[""]`, adjacent separators give empty fields. -/
def split_chars (sep : Char) : List Char → List (List Char)
  | [] => [[]]
  | c :: cs =>
    let rest := split_chars sep cs
    if c = sep then [] :: rest
    else (c :: rest.headD []) :: rest.tail

/-- `Pairing.get_player_number`: `int(player_id.split('_')[1])`.
`none` models the `IndexError` when the split has no second field and the
`ValueError` when that field is not an integer literal. -/
def get_player_number (player_id : String) : Option Int :=
  match (split_chars '_' player_id.toList).get? 1 with
  | some field => py_int_chars field
  | none => none

/-- `Pairing.rearrange_list`: `[old[0], old[-1]] + old[1:-1]`.
On `[]` Python raises `IndexError`; that case is never reached by the
generator (the rotation loop only runs for rosters of length ≥ 2), and the
embedding returns `[]` there.  For a singleton `[x]` Python yields `[x, x]`,
which `getLastD x` reproduces. -/
def rearrange_list (old_list : List String) : List String :=
  match old_list with
  | [] => []
  | x :: xs => x :: xs.getLastD x :: xs.dropLast

/-- `tuple(sorted(pair, key=self.get_player_number))` on a two-element list:
Python's stable sort keeps `[a, b]` unless `key b < key a`, and propagates
the exception when a key call fails. -/
def sort_pair (a b : String) : Option Match := do
  let na ← get_player_number a
  let nb ← get_player_number b
  pure (if nb < na then (b, a) else (a, b))

/-- `Pairing.generate_pairing`: for `i in range(len(l) // 2)` canonicalize
`(l[i], l[-i-1])` and add it to the set. `l[-i-1]` is `l[len-i-1]`. -/
def generate_pairing (list_configuration : List String) : Option Config :=
  (List.range (list_configuration.length / 2)).foldlM
    (fun set_configuration i => do
      let pair ← sort_pair (list_configuration.getD i "")
        (list_configuration.getD (list_configuration.length - i - 1) "")
      pure (insert pair set_configuration))
    (∅ : Config)

/-- The `while i < len(initial)` loop of `generate_circle_configurations`,
run for `fuel` remaining iterations: rearrange, pair the rearranged list,
append, repeat. An exception anywhere loses the whole construction. -/
def circle_loop (current : List String) : Nat → Option (List Config)
  | 0 => some []
  | fuel + 1 => do
    let next := rearrange_list current
    let cfg ← generate_pairing next
    let rest ← circle_loop next fuel
    pure (cfg :: rest)

/-- `Pairing.generate_circle_configurations` as a pure function of the
initial arrangement: the loop body runs `len - 1` times (for `i = 1` up to
`len(initial) - 1`). -/
def generate_circle_configurations (initial_configuration : List String) :
    Option (List Config) :=
  circle_loop initial_configuration (initial_configuration.length - 1)

/-- The engine state: `list_of_players`, `initial_configuration` (Python
keeps it as a tuple), `possibles_configurations` and `played_matches`. -/
structure Pairing where
  list_of_players : List String
  initial_configuration : List String
  possibles_configurations : List Config
  played_matches : Finset Match

instance : DecidableEq Pairing := fun p q =>
  decidable_of_iff
    (p.list_of_players = q.list_of_players ∧
      p.initial_configuration = q.initial_configuration ∧
      p.possibles_configurations = q.possibles_configurations ∧
      p.played_matches = q.played_matches)
    (by cases p; cases q; simp)

/-- `Option` equality decided without an `Eq.rec` in decision position, so
that concrete runs of the engine evaluate inside proofs. -/
instance (priority := 2000) decEqOptionComputable {α : Type} [DecidableEq α] :
    DecidableEq (Option α) := fun a b =>
  match a, b with
  | none, none => isTrue rfl
  | none, some _ => isFalse (fun h => Option.noConfusion h)
  | some _, none => isFalse (fun h => Option.noConfusion h)
  | some v, some w =>
    if h : v = w then isTrue (congrArg some h)
    else isFalse (fun hc => h (Option.some.inj hc))

/-- `Pairing.__init__` with `new_pairing=True`.  `arrangement` stands for
the value `randomize_players()` produced (a uniformly random permutation of
the roster); the claims quantify over all permutations.  `none` models a
constructor that escapes with an exception from schedule generation. -/
def mk_new (list_of_players : List String) (arrangement : List String) :
    Option Pairing :=
  (generate_circle_configurations arrangement).map fun cfgs =>
    { list_of_players := list_of_players
      initial_configuration := arrangement
      possibles_configurations := cfgs
      played_matches := ∅ }

/-- `Pairing.add_to_memory`: add every match of the round to the played set. -/
def add_to_memory (p : Pairing) (round_matches : Config) : Pairing :=
  { p with played_matches := p.played_matches ∪ round_matches }

/-- `Pairing.generate_first_round_configuration`:
`matches = self.possibles_configurations.pop()` (last element; `IndexError`,
i.e. `none`, on an empty list), then `add_to_memory` and return. -/
def generate_first_round_configuration (p : Pairing) :
    Option (Config × Pairing) :=
  match p.possibles_configurations.getLast? with
  | none => none
  | some ms =>
    some (ms,
      add_to_memory
        { p with possibles_configurations := p.possibles_configurations.dropLast }
        ms)

/-- `Pairing.generate_round_configuration_from_match`: scan
`possibles_configurations` in order for the first configuration containing
the match; if found, `list.remove` it (first occurrence), record its matches
and return it; otherwise Python falls off the loop and returns `None`
(`none` here, with the state untouched). -/
def generate_round_configuration_from_match (p : Pairing) (m : Match) :
    Option (Config × Pairing) :=
  match p.possibles_configurations.find? (fun c => decide (m ∈ c)) with
  | none => none
  | some configuration =>
    some (configuration,
      add_to_memory
        { p with possibles_configurations :=
            p.possibles_configurations.erase configuration }
        configuration)

/-- The pairs visited by the nested loops
`for i in range(n): for j in range(i+1, n)` over a list, in visit order. -/
def scan_pairs : List String → List (String × String)
  | [] => []
  | x :: xs => (xs.map fun y => (x, y)) ++ scan_pairs xs

/-- The body of `try_to_generate_next_round` over the pair list: canonicalize
(`none` = `ValueError` escaping), skip played pairs, and on the first
unplayed pair return whatever `generate_round_configuration_from_match`
yields - including Python's `None` when no remaining configuration contains
it, in which case the state is unchanged. -/
def try_scan (p : Pairing) : List (String × String) → Option (Option Config × Pairing)
  | [] => some (none, p)
  | (a, b) :: rest =>
    match sort_pair a b with
    | none => none
    | some match_test =>
      if match_test ∈ p.played_matches then try_scan p rest
      else
        match generate_round_configuration_from_match p match_test with
        | none => some (none, p)
        | some (c, p2) => some (some c, p2)

/-- `Pairing.try_to_generate_next_round`. -/
def try_to_generate_next_round (p : Pairing) (list_of_players : List String) :
    Option (Option Config × Pairing) :=
  try_scan p (scan_pairs list_of_players)

/-- The `while i < len(ranking_key) and not result` loop of
`generate_next_round_from_ranking`.  `result` is threaded because an empty
returned set is falsy in Python: the loop would keep going and return the
last `result`.  (With nonempty configurations the `cfg = ∅` branch is dead.) -/
def ranking_loop (p : Pairing) (result : Option Config)
    (accumulated_list : List String) :
    List (List String) → Option (Option Config × Pairing)
  | [] => some (result, p)
  | g :: rest =>
    let acc2 := accumulated_list ++ g
    match try_to_generate_next_round p acc2 with
    | none => none
    | some (none, p2) => ranking_loop p2 none acc2 rest
    | some (some cfg, p2) =>
      if cfg = ∅ then ranking_loop p2 (some cfg) acc2 rest
      else some (some cfg, p2)

/-- Stable insertion into an ascending list: the new element (which comes
from an earlier position) goes before the first element it does not strictly
exceed. -/
def insert_le {α : Type} (le : α → α → Bool) (a : α) : List α → List α
  | [] => [a]
  | b :: bs => if le a b then a :: b :: bs else b :: insert_le le a bs

/-- Stable ascending insertion sort - the same function Python's stable
`sorted` computes. -/
def sort_stable {α : Type} (le : α → α → Bool) : List α → List α
  | [] => []
  | a :: rest => insert_le le a (sort_stable le rest)

/-- `Pairing.generate_next_round_from_ranking`: sort the rank keys with
`sorted(keys, key=int)` (any unparsable key raises, `none`), then accumulate
each rank's players in that order and scan.  The ranking dict is modelled as
an association list in insertion order; Python's sort is stable, like
`sort_stable`. -/
def generate_next_round_from_ranking (p : Pairing)
    (dict_ranking : List (String × List String)) :
    Option (Option Config × Pairing) :=
  match dict_ranking.mapM (fun kv => (py_int kv.1).map fun n => (n, kv.2)) with
  | none => none
  | some keyed =>
    let sorted_groups :=
      (sort_stable (fun x y => decide (x.1 ≤ y.1)) keyed).map (·.2)
    ranking_loop p none [] sorted_groups

/-- `Pairing.instantiate_pairing`: build with `new_pairing=False` (empty
memory, no schedule), install the persisted arrangement, regenerate the
schedule, replay the played matches, and keep only the configurations whose
intersection with the played set is empty (`if not config & played`). -/
def instantiate_pairing (list_of_players : List String)
    (initial_configuration : List String) (list_played_matches : List Match) :
    Option Pairing :=
  (generate_circle_configurations initial_configuration).map fun cfgs =>
    let played := list_played_matches.toFinset
    { list_of_players := list_of_players
      initial_configuration := initial_configuration
      possibles_configurations :=
        cfgs.filter fun c => decide (c ∩ played = ∅)
      played_matches := played }

/-- One selection call on the engine, as the spec's three entry points. -/
inductive Op where
  | first : Op
  | fromMatch : Match → Op
  | ranking : List (String × List String) → Op

/-- Apply one selection call; `some (c, p2)` iff the call successfully
returned configuration `c`.  A ranking call that raised or returned `None`
is a non-success. -/
def apply_op (p : Pairing) : Op → Option (Config × Pairing)
  | .first => generate_first_round_configuration p
  | .fromMatch m => generate_round_configuration_from_match p m
  | .ranking r =>
    match generate_next_round_from_ranking p r with
    | some (some c, p2) => some (c, p2)
    | _ => none

/-- Run a sequence of selection calls on one engine instance, collecting the
successfully returned configurations in order.  A failed call leaves the
engine unchanged (no mutation precedes the raise point as long as the
schedule holds no empty configuration, which the engine invariant below
guarantees). -/
def run (p : Pairing) : List Op → List Config × Pairing
  | [] => ([], p)
  | op :: rest =>
    match apply_op p op with
    | none => run p rest
    | some (c, p2) =>
      let r := run p2 rest
      (c :: r.1, r.2)

/-! ### Proof-layer vocabulary

`WF` singles out the identifiers `get_player_number` accepts, `numV` and
`canonV` are the total restrictions of the key function and of pair
canonicalization to such identifiers, and `pairingV`/`seatPair` give the
value `generate_pairing` computes on a well-formed seating. -/

/-- A player identifier whose numeric index `int(id.split('_')[1])` exists. -/
def WF (x : String) : Prop := (get_player_number x).isSome

instance : DecidablePred WF := fun x =>
  inferInstanceAs (Decidable ((get_player_number x).isSome = true))

/-- The numeric index of a well-formed identifier (junk `0` otherwise). -/
def numV (x : String) : Int := (get_player_number x).getD 0

/-- Canonical (index-sorted) form of a pair of identifiers. -/
def canonV (a b : String) : Match := if numV b < numV a then (b, a) else (a, b)

/-- The pair `generate_pairing` forms from seats `i` and `len - 1 - i`. -/
def seatPair (l : List String) (i : Nat) : Match :=
  canonV (l.getD i "") (l.getD (l.length - i - 1) "")

/-- The set of pairs of one seating, as `generate_pairing` computes it. -/
def pairingV (l : List String) : Config :=
  (Finset.range (l.length / 2)).image (seatPair l)

theorem sort_pair_eq_canonV {a b : String} (ha : WF a) (hb : WF b) :
    sort_pair a b = some (canonV a b) := by
  rcases Option.isSome_iff_exists.mp ha with ⟨na, hna⟩
  rcases Option.isSome_iff_exists.mp hb with ⟨nb, hnb⟩
  simp [sort_pair, hna, hnb, canonV, numV]

theorem canonV_comm {a b : String} (h : numV a ≠ numV b) :
    canonV a b = canonV b a := by
  unfold canonV
  split_ifs with h1 h2 h2 <;> first | rfl | (exfalso; omega)

theorem canonV_cases (a b : String) :
    canonV a b = (a, b) ∨ canonV a b = (b, a) := by
  unfold canonV; split_ifs <;> simp

theorem canonV_num_lt {a b : String} (h : numV a ≠ numV b) :
    numV (canonV a b).1 < numV (canonV a b).2 := by
  unfold canonV; split_ifs with h1 <;> simp <;> omega

theorem getD_mem {α : Type} {l : List α} {i : Nat} {d : α} (h : i < l.length) :
    l.getD i d ∈ l := by
  rw [List.getD_eq_getElem l d h]
  exact List.getElem_mem h

theorem foldlM_option_of_some {α β : Type} (f : β → α → Option β) (g : β → α → β)
    (l : List α) (hfg : ∀ b a, a ∈ l → f b a = some (g b a)) :
    ∀ init, l.foldlM f init = some (l.foldl g init) := by
  induction l with
  | nil => intro init; rfl
  | cons a l ih =>
    intro init
    have h1 : f init a = some (g init a) := hfg init a (by simp)
    have h2 : ∀ b c, c ∈ l → f b c = some (g b c) := fun b c hc =>
      hfg b c (by simp [hc])
    simp only [List.foldlM_cons, h1, Option.bind_eq_bind, Option.some_bind]
    exact ih h2 (g init a)

theorem foldl_insert_eq {α β : Type} [DecidableEq α] [DecidableEq β] (f : α → β) (l : List α) :
    ∀ init : Finset β,
      l.foldl (fun s a => insert (f a) s) init = init ∪ l.toFinset.image f := by
  induction l with
  | nil => intro init; simp
  | cons a l ih =>
    intro init
    rw [List.foldl_cons, ih (insert (f a) init)]
    ext x
    simp only [Finset.mem_union, Finset.mem_insert, Finset.mem_image,
      List.mem_toFinset, List.mem_cons]
    constructor
    · rintro ((h | h) | ⟨y, hy, rfl⟩)
      · exact Or.inr ⟨a, Or.inl rfl, h.symm⟩
      · exact Or.inl h
      · exact Or.inr ⟨y, Or.inr hy, rfl⟩
    · rintro (h | ⟨y, (rfl | hy), rfl⟩)
      · exact Or.inl (Or.inr h)
      · exact Or.inl (Or.inl rfl)
      · exact Or.inr ⟨y, hy, rfl⟩

theorem generate_pairing_eq {l : List String} (hwf : ∀ x ∈ l, WF x) :
    generate_pairing l = some (pairingV l) := by
  unfold generate_pairing pairingV
  rcases Nat.eq_zero_or_pos l.length with hlen | hlen
  · simp [hlen]
  have step : ∀ (s : Config) (i : Nat), i ∈ List.range (l.length / 2) →
      (do
        let pair ← sort_pair (l.getD i "") (l.getD (l.length - i - 1) "")
        pure (insert pair s) : Option Config) = some (insert (seatPair l i) s) := by
    intro s i hi
    have hi2 : i < l.length := lt_of_lt_of_le (List.mem_range.mp hi) (Nat.div_le_self _ _)
    have hj : l.length - i - 1 < l.length := by omega
    rw [sort_pair_eq_canonV (hwf _ (getD_mem hi2)) (hwf _ (getD_mem hj))]
    rfl
  rw [foldlM_option_of_some _ (fun s i => insert (seatPair l i) s) _ step ∅,
    foldl_insert_eq]
  congr 1
  rw [Finset.empty_union]
  congr 1
  ext j
  simp

theorem rearrange_concat (x y : String) (ys : List String) :
    rearrange_list (x :: (ys ++ [y])) = x :: y :: ys := by
  unfold rearrange_list
  simp [List.getLastD_concat, List.dropLast_concat]

theorem rotate_concat {α : Type} (ys : List α) (y : α) :
    (ys ++ [y]).rotate ys.length = y :: ys := by
  rw [List.rotate_eq_drop_append_take (by simp)]
  simp

theorem rearrange_cons {x : String} {xs : List String} (h : xs ≠ []) :
    rearrange_list (x :: xs) = x :: xs.rotate (xs.length - 1) := by
  rcases (List.eq_nil_or_concat xs) with rfl | ⟨ys, y, hys⟩
  · exact absurd rfl h
  · rw [List.concat_eq_append] at hys
    subst hys
    rw [rearrange_concat]
    have hl : (ys ++ [y]).length - 1 = ys.length := by simp
    rw [hl, rotate_concat]

theorem rearrange_iterate (x : String) {xs : List String} (h : xs ≠ []) :
    ∀ k : Nat,
      rearrange_list^[k] (x :: xs) = x :: xs.rotate ((xs.length - 1) * k) := by
  intro k
  induction k with
  | zero => simp
  | succ k ih =>
    have hne : xs.rotate ((xs.length - 1) * k) ≠ [] := by
      intro hc
      exact h (List.length_eq_zero.mp (by
        have := congrArg List.length hc
        simpa using this))
    rw [Function.iterate_succ_apply', ih, rearrange_cons hne,
      List.length_rotate, List.rotate_rotate, Nat.mul_succ]

theorem rearrange_perm {l : List String} (h : 2 ≤ l.length) :
    List.Perm (rearrange_list l) l := by
  cases l with
  | nil => simp at h
  | cons x xs =>
    have hne : xs ≠ [] := by
      intro hc; subst hc; simp at h
    rw [rearrange_cons hne]
    exact (List.rotate_perm xs (xs.length - 1)).cons x

theorem circle_loop_eq :
    ∀ (fuel : Nat) (x : String) (xs : List String), xs ≠ [] →
      (∀ y ∈ x :: xs, WF y) →
      circle_loop (x :: xs) fuel =
        some ((List.range fuel).map
          (fun j => pairingV (rearrange_list^[j + 1] (x :: xs)))) := by
  intro fuel
  induction fuel with
  | zero => intro x xs hne hwf; rfl
  | succ n ih =>
    intro x xs hne hwf
    have hnext : rearrange_list (x :: xs) = x :: xs.rotate (xs.length - 1) :=
      rearrange_cons hne
    have hperm : List.Perm (rearrange_list (x :: xs)) (x :: xs) := by
      rw [hnext]; exact (List.rotate_perm xs (xs.length - 1)).cons x
    have hwf2 : ∀ y ∈ rearrange_list (x :: xs), WF y := fun y hy =>
      hwf y (hperm.mem_iff.mp hy)
    have hne2 : xs.rotate (xs.length - 1) ≠ [] := by
      intro hc
      exact hne (List.length_eq_zero.mp (by
        have := congrArg List.length hc
        simpa using this))
    have hrec := ih x (xs.rotate (xs.length - 1)) hne2 (hnext ▸ hwf2)
    have hrec2 : circle_loop (rearrange_list (x :: xs)) n =
        some ((List.range n).map
          (fun j => pairingV (rearrange_list^[j + 1] (rearrange_list (x :: xs))))) := by
      rw [hnext]; exact hrec
    rw [show circle_loop (x :: xs) (n + 1) =
        (generate_pairing (rearrange_list (x :: xs))).bind
          (fun cfg => (circle_loop (rearrange_list (x :: xs)) n).bind
            (fun rest => some (cfg :: rest))) from rfl,
      generate_pairing_eq hwf2, hrec2]
    simp only [Option.some_bind]
    congr 1
    rw [List.range_succ_eq_map, List.map_cons, List.map_map]
    congr 1

/-! ### Modular arithmetic for the circle method

With `N` players (`N` even) and `m = N - 1` non-fixed seats, round `r`
seats the tail players rotated by `(m-1)*r`; the proofs below cancel the
units `m-1 ≡ -1` and `2` modulo the odd modulus `m`. -/

theorem sq_pred_modeq (m : Nat) (hm : 1 ≤ m) :
    (m - 1) * (m - 1) ≡ 1 [MOD m] := by
  obtain ⟨k, rfl⟩ : ∃ k, m = k + 1 := ⟨m - 1, by omega⟩
  have h1 : k + 1 - 1 = k := by omega
  rw [h1]
  have h2 : k * k + k ≡ 1 + k [MOD k + 1] := by
    calc k * k + k = k * (k + 1) := by ring
    _ ≡ 0 [MOD k + 1] := (Nat.modEq_zero_iff_dvd).mpr ⟨k, by ring⟩
    _ ≡ 1 + k [MOD k + 1] := ((Nat.modEq_zero_iff_dvd).mpr ⟨1, by ring⟩).symm
  exact Nat.ModEq.add_right_cancel' k h2

theorem modeq_cancel_pred {m a b : Nat} (hm : 1 ≤ m)
    (h : (m - 1) * a ≡ (m - 1) * b [MOD m]) : a ≡ b [MOD m] := by
  have h2 := h.mul_left (m - 1)
  rw [← mul_assoc, ← mul_assoc] at h2
  have hsq := sq_pred_modeq m hm
  calc a = 1 * a := by ring
  _ ≡ (m - 1) * (m - 1) * a [MOD m] := (hsq.mul_right a).symm
  _ ≡ (m - 1) * (m - 1) * b [MOD m] := h2
  _ ≡ 1 * b [MOD m] := hsq.mul_right b
  _ = b := by ring

theorem modeq_cancel_two {m a b : Nat} (hm : m % 2 = 1)
    (h : 2 * a ≡ 2 * b [MOD m]) : a ≡ b [MOD m] := by
  obtain ⟨c, rfl⟩ : ∃ c, m = 2 * c + 1 := ⟨m / 2, by omega⟩
  have hinv : 2 * (c + 1) ≡ 1 [MOD 2 * c + 1] := by
    have he : 2 * (c + 1) = (2 * c + 1) + 1 := by ring
    rw [he]
    show ((2 * c + 1) + 1) % (2 * c + 1) = 1 % (2 * c + 1)
    rw [Nat.add_mod_left]
  calc a = 1 * a := by ring
  _ ≡ 2 * (c + 1) * a [MOD 2 * c + 1] := (hinv.mul_right a).symm
  _ = (c + 1) * (2 * a) := by ring
  _ ≡ (c + 1) * (2 * b) [MOD 2 * c + 1] := h.mul_left (c + 1)
  _ = 2 * (c + 1) * b := by ring
  _ ≡ 1 * b [MOD 2 * c + 1] := hinv.mul_right b
  _ = b := by ring

theorem modeq_range_eq {m r1 r2 : Nat} (h1a : 1 ≤ r1) (h1b : r1 ≤ m)
    (h2a : 1 ≤ r2) (h2b : r2 ≤ m) (h : r1 ≡ r2 [MOD m]) : r1 = r2 := by
  have e1 : r1 % m = r2 % m := h
  rcases Nat.lt_or_ge r1 m with hr1 | hr1
  · rcases Nat.lt_or_ge r2 m with hr2 | hr2
    · rw [Nat.mod_eq_of_lt hr1, Nat.mod_eq_of_lt hr2] at e1
      exact e1
    · have hm2 : r2 = m := le_antisymm h2b hr2
      rw [Nat.mod_eq_of_lt hr1, hm2, Nat.mod_self] at e1
      omega
  · have hm1 : r1 = m := le_antisymm h1b hr1
    rcases Nat.lt_or_ge r2 m with hr2 | hr2
    · rw [hm1, Nat.mod_self, Nat.mod_eq_of_lt hr2] at e1
      omega
    · have hm2 : r2 = m := le_antisymm h2b hr2
      omega

/-- Rounds `r1, r2 ∈ [1, m]` that give the head player the same partner seat
are equal: `(m-1)*(r+1) mod m` is injective there. -/
theorem head_round_inj {m r1 r2 : Nat} (hm : 1 ≤ m)
    (h1a : 1 ≤ r1) (h1b : r1 ≤ m) (h2a : 1 ≤ r2) (h2b : r2 ≤ m)
    (h : ((m - 1) * (r1 + 1)) % m = ((m - 1) * (r2 + 1)) % m) : r1 = r2 := by
  have h2 : (m - 1) * (r1 + 1) ≡ (m - 1) * (r2 + 1) [MOD m] := h
  have h3 : r1 + 1 ≡ r2 + 1 [MOD m] := modeq_cancel_pred hm h2
  exact modeq_range_eq h1a h1b h2a h2b (Nat.ModEq.add_right_cancel' 1 h3)

/-- Rounds `r1, r2 ∈ [1, m]` (`m` odd) whose tail pairs have the same index
sum are equal: the sum in round `r` is `≡ m - 2 + 2*(m-1)*r`. -/
theorem sum_round_inj {m r1 r2 : Nat} (hm : m % 2 = 1)
    (h1a : 1 ≤ r1) (h1b : r1 ≤ m) (h2a : 1 ≤ r2) (h2b : r2 ≤ m)
    (h : m - 2 + 2 * ((m - 1) * r1) ≡ m - 2 + 2 * ((m - 1) * r2) [MOD m]) :
    r1 = r2 := by
  have hm1 : 1 ≤ m := by omega
  have h2 : 2 * ((m - 1) * r1) ≡ 2 * ((m - 1) * r2) [MOD m] :=
    Nat.ModEq.add_left_cancel' (m - 2) h
  have h3 : (m - 1) * r1 ≡ (m - 1) * r2 [MOD m] := modeq_cancel_two hm h2
  exact modeq_range_eq h1a h1b h2a h2b (modeq_cancel_pred hm1 h3)

/-! ### Structure of one configuration -/

/-- `z` is one of the two players of a match. -/
def inPair (z : String) (P : Match) : Prop := z = P.1 ∨ z = P.2

theorem canonV_eq_iff {a b c d : String} (h : canonV a b = canonV c d) :
    (a = c ∧ b = d) ∨ (a = d ∧ b = c) := by
  rcases canonV_cases a b with h1 | h1 <;> rcases canonV_cases c d with h2 | h2 <;>
    rw [h1, h2, Prod.mk.injEq] at h <;> tauto

theorem inPair_canonV {z a b : String} :
    inPair z (canonV a b) ↔ z = a ∨ z = b := by
  unfold inPair
  rcases canonV_cases a b with h | h
  · rw [h]
  · rw [h]
    exact Or.comm

theorem canonV_fst_mem (a b : String) : (canonV a b).1 = a ∨ (canonV a b).1 = b := by
  rcases canonV_cases a b with h | h <;> rw [h] <;> simp

theorem canonV_snd_mem (a b : String) : (canonV a b).2 = a ∨ (canonV a b).2 = b := by
  rcases canonV_cases a b with h | h <;> rw [h] <;> simp

theorem getD_eq_getElem {α : Type} {l : List α} {i : Nat} (d : α)
    (h : i < l.length) : l.getD i d = l[i] := by
  rw [List.getD_eq_getElem l d h]

theorem nodup_getD_inj {l : List String} (hnd : l.Nodup) {i j : Nat}
    (hi : i < l.length) (hj : j < l.length)
    (h : l.getD i "" = l.getD j "") : i = j := by
  rw [getD_eq_getElem _ hi, getD_eq_getElem _ hj] at h
  exact (List.Nodup.getElem_inj_iff hnd).mp h

theorem mem_pairingV {l : List String} {P : Match} :
    P ∈ pairingV l ↔ ∃ i, i < l.length / 2 ∧ P = seatPair l i := by
  unfold pairingV
  simp only [Finset.mem_image, Finset.mem_range]
  constructor
  · rintro ⟨i, hi, rfl⟩; exact ⟨i, hi, rfl⟩
  · rintro ⟨i, hi, rfl⟩; exact ⟨i, hi, rfl⟩

theorem generate_circle_eq {A : List String} (h2 : 2 ≤ A.length)
    (hwf : ∀ y ∈ A, WF y) :
    generate_circle_configurations A =
      some ((List.range (A.length - 1)).map
        (fun j => pairingV (rearrange_list^[j + 1] A))) := by
  cases A with
  | nil => simp at h2
  | cons x xs =>
    have hne : xs ≠ [] := by
      intro hc; subst hc; simp at h2
    have hlen : (x :: xs).length - 1 = xs.length + 1 - 1 := by simp
    unfold generate_circle_configurations
    exact circle_loop_eq _ x xs hne hwf

theorem modeq_eq_of_lt {a b m : Nat} (ha : a < m) (hb : b < m)
    (h : a ≡ b [MOD m]) : a = b := by
  have e : a % m = b % m := h
  rwa [Nat.mod_eq_of_lt ha, Nat.mod_eq_of_lt hb] at e

/-- The tail seat occupied after `r` rotations by the tail player of
original index `j`. -/
def tailIdx (m r j : Nat) : Nat := (j + (m - 1) * r) % m

theorem tailIdx_lt {m r j : Nat} (hm : 0 < m) : tailIdx m r j < m :=
  Nat.mod_lt _ hm

theorem tailIdx_inj {m r : Nat} {j1 j2 : Nat} (h1 : j1 < m) (h2 : j2 < m)
    (h : tailIdx m r j1 = tailIdx m r j2) : j1 = j2 := by
  have hmod : j1 + (m - 1) * r ≡ j2 + (m - 1) * r [MOD m] := by
    unfold tailIdx at h
    exact (Nat.mod_modEq _ m).symm.trans (h ▸ Nat.mod_modEq _ m)
  exact modeq_eq_of_lt h1 h2 (Nat.ModEq.add_right_cancel' _ hmod)

theorem tailIdx_sum {m r i : Nat} (h1 : 1 ≤ i) (h2 : i ≤ m - 1) (hm : 1 ≤ m) :
    tailIdx m r (i - 1) + tailIdx m r (m - i - 1) ≡
      m - 2 + 2 * ((m - 1) * r) [MOD m] := by
  unfold tailIdx
  have h3 := (Nat.mod_modEq (i - 1 + (m - 1) * r) m).add
    (Nat.mod_modEq (m - i - 1 + (m - 1) * r) m)
  have h4 : i - 1 + (m - 1) * r + (m - i - 1 + (m - 1) * r) =
      m - 2 + 2 * ((m - 1) * r) := by omega
  exact h3.trans (h4 ▸ Nat.ModEq.refl _)

theorem iterate_perm {x : String} {t : List String} (h : t ≠ []) (r : Nat) :
    List.Perm (rearrange_list^[r] (x :: t)) (x :: t) := by
  rw [rearrange_iterate x h r]
  exact (List.rotate_perm t ((t.length - 1) * r)).cons x

theorem iterate_length {x : String} {t : List String} (h : t ≠ []) (r : Nat) :
    (rearrange_list^[r] (x :: t)).length = t.length + 1 :=
  (iterate_perm h r).length_eq.trans (by simp)

theorem iterate_getD_zero {x : String} {t : List String} (h : t ≠ []) (r : Nat) :
    (rearrange_list^[r] (x :: t)).getD 0 "" = x := by
  rw [rearrange_iterate x h r]
  rfl

theorem iterate_getD_succ {x : String} {t : List String} (h : t ≠ []) (r : Nat)
    {j : Nat} (hj : j < t.length) :
    (rearrange_list^[r] (x :: t)).getD (j + 1) "" =
      t.getD (tailIdx t.length r j) "" := by
  rw [rearrange_iterate x h r]
  have hj2 : j < (t.rotate ((t.length - 1) * r)).length := by
    rw [List.length_rotate]; exact hj
  have hlt : tailIdx t.length r j < t.length :=
    tailIdx_lt (by cases t with | nil => exact absurd rfl h | cons => simp)
  show (t.rotate ((t.length - 1) * r)).getD j "" = _
  rw [getD_eq_getElem _ hj2, getD_eq_getElem _ hlt, List.getElem_rotate]
  rfl

/-- Seat pair `0` of round `r`: the fixed head against the tail player of
index `(m-1)*(r+1) mod m`. -/
theorem seatPair_round_zero {x : String} {t : List String} (h : t ≠ []) (r : Nat) :
    seatPair (rearrange_list^[r] (x :: t)) 0 =
      canonV x (t.getD (tailIdx t.length r (t.length - 1)) "") := by
  have hm : 1 ≤ t.length := by
    cases t with | nil => exact absurd rfl h | cons => simp
  unfold seatPair
  rw [iterate_getD_zero h r]
  have hlen : (rearrange_list^[r] (x :: t)).length - 0 - 1 = (t.length - 1) + 1 := by
    rw [iterate_length h r]; omega
  rw [hlen, iterate_getD_succ h r (by omega)]

/-- Seat pair `i ≥ 1` of round `r`: the two tail players whose original
indices are `(i-1) + (m-1)r` and `(m-i-1) + (m-1)r`, modulo `m`. -/
theorem seatPair_round_succ {x : String} {t : List String} (h : t ≠ []) (r : Nat)
    {i : Nat} (h1 : 1 ≤ i) (h2 : i ≤ t.length - 1) :
    seatPair (rearrange_list^[r] (x :: t)) i =
      canonV (t.getD (tailIdx t.length r (i - 1)) "")
        (t.getD (tailIdx t.length r (t.length - i - 1)) "") := by
  have hm : 1 ≤ t.length := by
    cases t with | nil => exact absurd rfl h | cons => simp
  unfold seatPair
  obtain ⟨i0, rfl⟩ : ∃ i0, i = i0 + 1 := ⟨i - 1, by omega⟩
  rw [iterate_getD_succ h r (by omega)]
  have hlen : (rearrange_list^[r] (x :: t)).length - (i0 + 1) - 1 =
      (t.length - (i0 + 1) - 1) + 1 := by
    rw [iterate_length h r]; omega
  rw [hlen, iterate_getD_succ h r (by omega)]
  have e1 : i0 + 1 - 1 = i0 := by omega
  rw [e1]

/-! ### One configuration is a perfect matching -/

theorem seatPair_fst_mem {l : List String} {i : Nat} (hi : i < l.length / 2) :
    (seatPair l i).1 ∈ l := by
  have h1 : i < l.length := lt_of_lt_of_le hi (Nat.div_le_self _ _)
  have h2 : l.length - i - 1 < l.length := by omega
  rcases canonV_fst_mem (l.getD i "") (l.getD (l.length - i - 1) "") with h | h <;>
    rw [seatPair, h]
  · exact getD_mem h1
  · exact getD_mem h2

theorem seatPair_snd_mem {l : List String} {i : Nat} (hi : i < l.length / 2) :
    (seatPair l i).2 ∈ l := by
  have h1 : i < l.length := lt_of_lt_of_le hi (Nat.div_le_self _ _)
  have h2 : l.length - i - 1 < l.length := by omega
  rcases canonV_snd_mem (l.getD i "") (l.getD (l.length - i - 1) "") with h | h <;>
    rw [seatPair, h]
  · exact getD_mem h1
  · exact getD_mem h2

theorem seatPair_ne {l : List String} (hnd : l.Nodup) (heven : l.length % 2 = 0)
    {i : Nat} (hi : i < l.length / 2) : (seatPair l i).1 ≠ (seatPair l i).2 := by
  have h1 : i < l.length := lt_of_lt_of_le hi (Nat.div_le_self _ _)
  have h2 : l.length - i - 1 < l.length := by omega
  have hii : i ≠ l.length - i - 1 := by omega
  have hne : l.getD i "" ≠ l.getD (l.length - i - 1) "" := fun hc =>
    hii (nodup_getD_inj hnd h1 h2 hc)
  rcases canonV_cases (l.getD i "") (l.getD (l.length - i - 1) "") with h | h <;>
    rw [seatPair, h]
  · exact hne
  · exact hne.symm

theorem seatPair_inj {l : List String} (hnd : l.Nodup)
    (heven : l.length % 2 = 0) {i1 i2 : Nat}
    (h1 : i1 < l.length / 2) (h2 : i2 < l.length / 2)
    (h : seatPair l i1 = seatPair l i2) : i1 = i2 := by
  have ha1 : i1 < l.length := lt_of_lt_of_le h1 (Nat.div_le_self _ _)
  have ha2 : i2 < l.length := lt_of_lt_of_le h2 (Nat.div_le_self _ _)
  have hb1 : l.length - i1 - 1 < l.length := by omega
  have hb2 : l.length - i2 - 1 < l.length := by omega
  unfold seatPair at h
  rcases canonV_eq_iff h with ⟨hx, _⟩ | ⟨hx, _⟩
  · exact nodup_getD_inj hnd ha1 ha2 hx
  · have := nodup_getD_inj hnd ha1 hb2 hx
    omega

theorem pairingV_card {l : List String} (hnd : l.Nodup)
    (heven : l.length % 2 = 0) : (pairingV l).card = l.length / 2 := by
  unfold pairingV
  rw [Finset.card_image_of_injOn, Finset.card_range]
  intro i1 hi1 i2 hi2 h
  exact seatPair_inj hnd heven (Finset.mem_range.mp hi1) (Finset.mem_range.mp hi2) h

/-- Every player of the seating belongs to exactly one pair of its
configuration. -/
theorem pairingV_matching {l : List String} (hnd : l.Nodup)
    (heven : l.length % 2 = 0) {z : String} (hz : z ∈ l) :
    ∃! P, P ∈ pairingV l ∧ inPair z P := by
  obtain ⟨j, hj, hje⟩ := List.getElem_of_mem hz
  have hjD : l.getD j "" = z := by rw [getD_eq_getElem _ hj, hje]
  have hhalf : l.length / 2 * 2 = l.length := by omega
  -- the index of the pair holding seat j
  have key : ∀ i, i < l.length / 2 → (inPair z (seatPair l i) ↔
      i = j ∨ l.length - i - 1 = j) := by
    intro i hi
    have ha : i < l.length := by omega
    have hb : l.length - i - 1 < l.length := by omega
    unfold seatPair
    rw [inPair_canonV]
    constructor
    · rintro (hzi | hzi)
      · exact Or.inl ((nodup_getD_inj hnd ha hj (by rw [hjD, ← hzi])).symm ▸ rfl)
      · exact Or.inr (nodup_getD_inj hnd hb hj (by rw [hjD, ← hzi]))
    · rintro (rfl | hzi)
      · exact Or.inl (by rw [hjD])
      · exact Or.inr (by rw [← hzi] at hjD; rw [hjD])
  have hidx : ∃ i, i < l.length / 2 ∧ (i = j ∨ l.length - i - 1 = j) := by
    rcases Nat.lt_or_ge j (l.length / 2) with hc | hc
    · exact ⟨j, hc, Or.inl rfl⟩
    · exact ⟨l.length - j - 1, by omega, Or.inr (by omega)⟩
  obtain ⟨i, hi, hij⟩ := hidx
  refine ⟨seatPair l i, ⟨mem_pairingV.mpr ⟨i, hi, rfl⟩, (key i hi).mpr hij⟩, ?_⟩
  rintro P ⟨hP, hzP⟩
  obtain ⟨i2, hi2, rfl⟩ := mem_pairingV.mp hP
  have hij2 := (key i2 hi2).mp hzP
  have : i2 = i := by omega
  rw [this]

/-! ### Counting all pairs -/

/-- All canonical pairs of distinct roster players (index of the first
strictly below the index of the second). -/
def halfPairs (roster : List String) : Config :=
  (roster.toFinset.offDiag).filter (fun q => numV q.1 < numV q.2)

/-- Distinct players carry distinct numeric indices. -/
def InjNum (roster : List String) : Prop :=
  ∀ a ∈ roster, ∀ b ∈ roster, a ≠ b → numV a ≠ numV b

instance (roster : List String) : Decidable (InjNum roster) :=
  inferInstanceAs
    (Decidable (∀ a ∈ roster, ∀ b ∈ roster, a ≠ b → numV a ≠ numV b))

theorem canonV_mem_halfPairs {roster : List String} (hinj : InjNum roster)
    {a b : String} (ha : a ∈ roster) (hb : b ∈ roster) (hab : a ≠ b) :
    canonV a b ∈ halfPairs roster := by
  have hnum : numV a ≠ numV b := hinj a ha b hb hab
  refine Finset.mem_filter.mpr ⟨Finset.mem_offDiag.mpr ⟨?_, ?_, ?_⟩, ?_⟩
  · rcases canonV_fst_mem a b with h | h <;> rw [h] <;> simp [List.mem_toFinset]
    · exact ha
    · exact hb
  · rcases canonV_snd_mem a b with h | h <;> rw [h] <;> simp [List.mem_toFinset]
    · exact ha
    · exact hb
  · rcases canonV_cases a b with h | h <;> rw [h]
    · exact hab
    · exact hab.symm
  · exact canonV_num_lt hnum

theorem mem_halfPairs_elim {roster : List String} {P : Match}
    (h : P ∈ halfPairs roster) :
    P.1 ∈ roster ∧ P.2 ∈ roster ∧ P.1 ≠ P.2 := by
  have h2 := Finset.mem_offDiag.mp (Finset.mem_filter.mp h).1
  exact ⟨List.mem_toFinset.mp h2.1, List.mem_toFinset.mp h2.2.1, h2.2.2⟩

theorem halfPairs_card {roster : List String} (hnd : roster.Nodup)
    (hinj : InjNum roster) :
    (halfPairs roster).card * 2 = roster.length * (roster.length - 1) := by
  have hs : roster.toFinset.card = roster.length :=
    List.toFinset_card_of_nodup hnd
  have hne : ∀ q ∈ roster.toFinset.offDiag, numV q.1 ≠ numV q.2 := by
    intro q hq
    have h2 := Finset.mem_offDiag.mp hq
    exact hinj _ (List.mem_toFinset.mp h2.1) _ (List.mem_toFinset.mp h2.2.1) h2.2.2
  have hsplit :
      ((roster.toFinset.offDiag).filter (fun q => numV q.1 < numV q.2)).card +
        ((roster.toFinset.offDiag).filter (fun q => ¬ numV q.1 < numV q.2)).card =
        (roster.toFinset.offDiag).card :=
    Finset.filter_card_add_filter_neg_card_eq_card _
  have hcongr :
      (roster.toFinset.offDiag).filter (fun q => ¬ numV q.1 < numV q.2) =
        (roster.toFinset.offDiag).filter (fun q => numV q.2 < numV q.1) := by
    apply Finset.filter_congr
    intro q hq
    have hq2 := hne q hq
    constructor
    · intro hlt
      omega
    · intro hlt
      omega
  have hswap :
      ((roster.toFinset.offDiag).filter (fun q => numV q.2 < numV q.1)).card =
        (halfPairs roster).card := by
    apply Finset.card_nbij' Prod.swap Prod.swap
    · intro q hq
      obtain ⟨h1, h2⟩ := Finset.mem_filter.mp hq
      have h3 := Finset.mem_offDiag.mp h1
      exact Finset.mem_filter.mpr
        ⟨Finset.mem_offDiag.mpr ⟨h3.2.1, h3.1, Ne.symm h3.2.2⟩, h2⟩
    · intro q hq
      obtain ⟨h1, h2⟩ := Finset.mem_filter.mp hq
      have h3 := Finset.mem_offDiag.mp h1
      exact Finset.mem_filter.mpr
        ⟨Finset.mem_offDiag.mpr ⟨h3.2.1, h3.1, Ne.symm h3.2.2⟩, h2⟩
    · intro q _
      exact Prod.swap_swap q
    · intro q _
      exact Prod.swap_swap q
  have hoff : (roster.toFinset.offDiag).card =
      roster.length * roster.length - roster.length := by
    rw [Finset.offDiag_card, hs]
  have hcomb : (halfPairs roster).card + (halfPairs roster).card =
      roster.length * roster.length - roster.length := by
    rw [← hoff, ← hsplit, hcongr, hswap]
    rfl
  have hfin : roster.length * roster.length - roster.length =
      roster.length * (roster.length - 1) := by
    rcases roster.length with _ | k
    · simp
    · have h : (k + 1) * (k + 1) = (k + 1) * k + (k + 1) := by ring
      have h2 : (k + 1) * (k + 1 - 1) = (k + 1) * k := by norm_num
      omega
  omega

/-! ### Distinct rounds share no pair -/

theorem rounds_disjoint {x : String} {t : List String} (hne : t ≠ [])
    (hnd : (x :: t).Nodup) (hmodd : t.length % 2 = 1)
    {r1 r2 : Nat} (h1a : 1 ≤ r1) (h1b : r1 ≤ t.length)
    (h2a : 1 ≤ r2) (h2b : r2 ≤ t.length) (hne12 : r1 ≠ r2) :
    Disjoint (pairingV (rearrange_list^[r1] (x :: t)))
      (pairingV (rearrange_list^[r2] (x :: t))) := by
  have hm : 1 ≤ t.length := by
    cases t with | nil => exact absurd rfl hne | cons => simp
  have hm0 : 0 < t.length := hm
  have hx : x ∉ t := (List.nodup_cons.mp hnd).1
  have hndt : t.Nodup := (List.nodup_cons.mp hnd).2
  rw [Finset.disjoint_left]
  intro P hP1 hP2
  obtain ⟨i1, hi1, hP1e⟩ := mem_pairingV.mp hP1
  obtain ⟨i2, hi2, hP2e⟩ := mem_pairingV.mp hP2
  rw [iterate_length hne r1] at hi1
  rw [iterate_length hne r2] at hi2
  have hPe : seatPair (rearrange_list^[r1] (x :: t)) i1 =
      seatPair (rearrange_list^[r2] (x :: t)) i2 := by rw [← hP1e, ← hP2e]
  have hi1b : i1 = 0 ∨ (1 ≤ i1 ∧ i1 ≤ t.length - 1) := by omega
  have hi2b : i2 = 0 ∨ (1 ≤ i2 ∧ i2 ≤ t.length - 1) := by omega
  rcases hi1b with rfl | ⟨hi1x, hi1y⟩ <;> rcases hi2b with rfl | ⟨hi2x, hi2y⟩
  · -- both head pairs
    rw [seatPair_round_zero hne r1, seatPair_round_zero hne r2] at hPe
    rcases canonV_eq_iff hPe with ⟨_, hw⟩ | ⟨hxw, _⟩
    · have hw12 := nodup_getD_inj hndt (tailIdx_lt hm0) (tailIdx_lt hm0) hw
      unfold tailIdx at hw12
      have he : ∀ r : Nat, t.length - 1 + (t.length - 1) * r =
          (t.length - 1) * (r + 1) := fun r => by ring
      rw [he r1, he r2] at hw12
      exact hne12 (head_round_inj hm h1a h1b h2a h2b hw12)
    · exact hx (hxw ▸ getD_mem (tailIdx_lt hm0))
  · -- head pair versus tail pair: x would lie in the tail
    rw [seatPair_round_zero hne r1,
      seatPair_round_succ hne r2 hi2x hi2y] at hPe
    rcases canonV_eq_iff hPe with ⟨hxw, _⟩ | ⟨hxw, _⟩ <;>
      exact hx (hxw ▸ getD_mem (tailIdx_lt hm0))
  · rw [seatPair_round_succ hne r1 hi1x hi1y,
      seatPair_round_zero hne r2] at hPe
    rcases canonV_eq_iff hPe with ⟨hxw, _⟩ | ⟨_, hxw⟩ <;>
      exact hx (hxw.symm ▸ getD_mem (tailIdx_lt hm0))
  · -- both tail pairs: equal index sums force equal rounds
    rw [seatPair_round_succ hne r1 hi1x hi1y,
      seatPair_round_succ hne r2 hi2x hi2y] at hPe
    have hsum : tailIdx t.length r1 (i1 - 1) +
        tailIdx t.length r1 (t.length - i1 - 1) =
        tailIdx t.length r2 (i2 - 1) +
          tailIdx t.length r2 (t.length - i2 - 1) := by
      rcases canonV_eq_iff hPe with ⟨hu, hv⟩ | ⟨hu, hv⟩
      · rw [nodup_getD_inj hndt (tailIdx_lt hm0) (tailIdx_lt hm0) hu,
          nodup_getD_inj hndt (tailIdx_lt hm0) (tailIdx_lt hm0) hv]
      · rw [nodup_getD_inj hndt (tailIdx_lt hm0) (tailIdx_lt hm0) hu,
          nodup_getD_inj hndt (tailIdx_lt hm0) (tailIdx_lt hm0) hv]
        omega
    have hs1 := @tailIdx_sum t.length r1 i1 hi1x hi1y hm
    have hs2 := @tailIdx_sum t.length r2 i2 hi2x hi2y hm
    have hfin : t.length - 2 + 2 * ((t.length - 1) * r1) ≡
        t.length - 2 + 2 * ((t.length - 1) * r2) [MOD t.length] :=
      hs1.symm.trans (hsum ▸ hs2)
    exact hne12 (sum_round_inj hmodd h1a h1b h2a h2b hfin)

/-! ### The schedule covers every pair exactly once -/

/-- Union of all matches of a schedule. -/
def unionConfigs (cfgs : List Config) : Config := cfgs.foldr (· ∪ ·) ∅

theorem mem_unionConfigs {cfgs : List Config} {P : Match} :
    P ∈ unionConfigs cfgs ↔ ∃ c ∈ cfgs, P ∈ c := by
  induction cfgs with
  | nil => simp [unionConfigs]
  | cons c rest ih =>
    simp only [unionConfigs, List.foldr_cons, Finset.mem_union, List.mem_cons]
    rw [show rest.foldr (· ∪ ·) ∅ = unionConfigs rest from rfl, ih]
    constructor
    · rintro (h | ⟨d, hd, hP⟩)
      · exact ⟨c, Or.inl rfl, h⟩
      · exact ⟨d, Or.inr hd, hP⟩
    · rintro ⟨d, (rfl | hd), hP⟩
      · exact Or.inl hP
      · exact Or.inr ⟨d, hd, hP⟩

theorem unionConfigs_card {cfgs : List Config}
    (hpw : List.Pairwise (fun c d => Disjoint c d) cfgs) :
    (unionConfigs cfgs).card = (cfgs.map Finset.card).sum := by
  induction cfgs with
  | nil => simp [unionConfigs]
  | cons c rest ih =>
    obtain ⟨hc, hrest⟩ := List.pairwise_cons.mp hpw
    have hdisj : Disjoint c (unionConfigs rest) := by
      rw [Finset.disjoint_left]
      intro a ha hmem
      obtain ⟨d, hd, had⟩ := mem_unionConfigs.mp hmem
      exact (Finset.disjoint_left.mp (hc d hd)) ha had
    show (c ∪ unionConfigs rest).card = _
    rw [Finset.card_union_of_disjoint hdisj, ih hrest, List.map_cons,
      List.sum_cons]

theorem pairingV_subset_halfPairs {roster l : List String}
    (hperm : List.Perm l roster) (hinj : InjNum roster)
    (hnd : l.Nodup) (heven : l.length % 2 = 0) :
    pairingV l ⊆ halfPairs roster := by
  intro P hP
  obtain ⟨i, hi, rfl⟩ := mem_pairingV.mp hP
  have h1 : i < l.length := lt_of_lt_of_le hi (Nat.div_le_self _ _)
  have h2 : l.length - i - 1 < l.length := by omega
  have hii : i ≠ l.length - i - 1 := by omega
  have hab : l.getD i "" ≠ l.getD (l.length - i - 1) "" := fun hc =>
    hii (nodup_getD_inj hnd h1 h2 hc)
  exact canonV_mem_halfPairs hinj (hperm.mem_iff.mp (getD_mem h1))
    (hperm.mem_iff.mp (getD_mem h2)) hab

/-- The master completeness theorem for the circle schedule of an
arrangement `A`: `|A| - 1` configurations, each a perfect matching of the
players of `A`, pairwise disjoint, every pair of distinct players in
exactly one configuration. -/
theorem circle_schedule_props {A : List String}
    (h2 : 2 ≤ A.length) (heven : A.length % 2 = 0) (hnd : A.Nodup)
    (hwf : ∀ y ∈ A, WF y) (hinj : InjNum A) :
    ∃ cfgs, generate_circle_configurations A = some cfgs ∧
      cfgs.length = A.length - 1 ∧
      (∀ c ∈ cfgs, c.card = A.length / 2 ∧
        (∀ P ∈ c, P.1 ∈ A ∧ P.2 ∈ A ∧ P.1 ≠ P.2) ∧
        (∀ z ∈ A, ∃! P, P ∈ c ∧ inPair z P)) ∧
      List.Pairwise (fun c d => Disjoint c d) cfgs ∧
      (∀ a ∈ A, ∀ b ∈ A, a ≠ b →
        ∃! k, k < cfgs.length ∧ canonV a b ∈ cfgs.getD k ∅) := by
  obtain ⟨x, t, rfl⟩ : ∃ x t, A = x :: t := by
    cases A with
    | nil => simp at h2
    | cons x t => exact ⟨x, t, rfl⟩
  have hne : t ≠ [] := by
    intro hc; subst hc; simp at h2
  have hm : 1 ≤ t.length := by
    cases t with | nil => exact absurd rfl hne | cons => simp
  have hN : (x :: t).length = t.length + 1 := by simp
  have hmodd : t.length % 2 = 1 := by omega
  have hNm : (x :: t).length - 1 = t.length := by simp
  -- facts about each round
  have hroundPerm : ∀ r : Nat, List.Perm (rearrange_list^[r] (x :: t)) (x :: t) :=
    fun r => iterate_perm hne r
  have hroundNodup : ∀ r : Nat, (rearrange_list^[r] (x :: t)).Nodup :=
    fun r => (hroundPerm r).nodup_iff.mpr hnd
  have hroundLen : ∀ r : Nat,
      (rearrange_list^[r] (x :: t)).length = (x :: t).length :=
    fun r => (hroundPerm r).length_eq
  have hroundEven : ∀ r : Nat,
      (rearrange_list^[r] (x :: t)).length % 2 = 0 := fun r => by
    rw [hroundLen r]; exact heven
  -- the schedule and its pairwise disjointness
  have hpw : List.Pairwise (fun c d => Disjoint c d)
      ((List.range ((x :: t).length - 1)).map
        (fun j => pairingV (rearrange_list^[j + 1] (x :: t)))) := by
    rw [List.pairwise_map]
    apply List.Pairwise.imp_of_mem ?_ (List.pairwise_lt_range _)
    intro j1 j2 hj1 hj2 hlt
    have hb1 : j1 < t.length := by
      have := List.mem_range.mp hj1; omega
    have hb2 : j2 < t.length := by
      have := List.mem_range.mp hj2; omega
    exact rounds_disjoint hne hnd hmodd (by omega) (by omega) (by omega)
      (by omega) (by omega)
  -- each configuration has N/2 matches
  have hcard : ∀ j, (pairingV (rearrange_list^[j + 1] (x :: t))).card =
      (x :: t).length / 2 := fun j => by
    rw [pairingV_card (hroundNodup (j + 1)) (hroundEven (j + 1)),
      hroundLen (j + 1)]
  -- the union of the schedule is exactly all pairs
  have hsub : unionConfigs ((List.range ((x :: t).length - 1)).map
      (fun j => pairingV (rearrange_list^[j + 1] (x :: t)))) ⊆
      halfPairs (x :: t) := by
    intro P hP
    obtain ⟨c, hc, hPc⟩ := mem_unionConfigs.mp hP
    obtain ⟨j, _, rfl⟩ := List.mem_map.mp hc
    exact pairingV_subset_halfPairs (hroundPerm (j + 1)) hinj
      (hroundNodup (j + 1)) (hroundEven (j + 1)) hPc
  have hcards : (unionConfigs ((List.range ((x :: t).length - 1)).map
      (fun j => pairingV (rearrange_list^[j + 1] (x :: t))))).card =
      (halfPairs (x :: t)).card := by
    have hrepl : (((List.range ((x :: t).length - 1)).map
        (fun j => pairingV (rearrange_list^[j + 1] (x :: t)))).map
          Finset.card) =
        List.replicate ((x :: t).length - 1) ((x :: t).length / 2) := by
      rw [List.eq_replicate_iff]
      constructor
      · simp
      · intro b hb
        obtain ⟨c, hc, rfl⟩ := List.mem_map.mp hb
        obtain ⟨j, _, rfl⟩ := List.mem_map.mp hc
        exact hcard j
    have h2eq : (unionConfigs ((List.range ((x :: t).length - 1)).map
        (fun j => pairingV (rearrange_list^[j + 1] (x :: t))))).card * 2 =
        (halfPairs (x :: t)).card * 2 := by
      rw [unionConfigs_card hpw, hrepl, List.sum_replicate, smul_eq_mul,
        halfPairs_card hnd hinj]
      have e1 : (x :: t).length / 2 * 2 = (x :: t).length := by omega
      have e2 : (x :: t).length - 1 = t.length := hNm
      rw [mul_assoc, e1, e2, hN]
      ring
    omega
  have huniv : unionConfigs ((List.range ((x :: t).length - 1)).map
      (fun j => pairingV (rearrange_list^[j + 1] (x :: t)))) =
      halfPairs (x :: t) :=
    Finset.eq_of_subset_of_card_le hsub (le_of_eq hcards.symm)
  refine ⟨(List.range ((x :: t).length - 1)).map
    (fun j => pairingV (rearrange_list^[j + 1] (x :: t))),
    generate_circle_eq h2 hwf, by simp, ?_, hpw, ?_⟩
  · -- each configuration is a perfect matching
    intro c hc
    obtain ⟨j, hj, rfl⟩ := List.mem_map.mp hc
    refine ⟨hcard j, ?_, ?_⟩
    · intro P hP
      obtain ⟨i, hi, rfl⟩ := mem_pairingV.mp hP
      exact ⟨(hroundPerm (j + 1)).mem_iff.mp (seatPair_fst_mem hi),
        (hroundPerm (j + 1)).mem_iff.mp (seatPair_snd_mem hi),
        seatPair_ne (hroundNodup (j + 1)) (hroundEven (j + 1)) hi⟩
    · intro z hz
      exact pairingV_matching (hroundNodup (j + 1)) (hroundEven (j + 1))
        ((hroundPerm (j + 1)).mem_iff.mpr hz)
  · -- every pair of distinct players occurs in exactly one configuration
    intro a ha b hb hab
    have hmem : canonV a b ∈ unionConfigs ((List.range ((x :: t).length - 1)).map
        (fun j => pairingV (rearrange_list^[j + 1] (x :: t)))) := by
      rw [huniv]
      exact canonV_mem_halfPairs hinj ha hb hab
    obtain ⟨c, hc, hPc⟩ := mem_unionConfigs.mp hmem
    obtain ⟨k, hk, hke⟩ := List.getElem_of_mem hc
    refine ⟨k, ⟨hk, ?_⟩, ?_⟩
    · rw [getD_eq_getElem ∅ hk, hke]
      exact hPc
    · rintro k2 ⟨hk2, hPk2⟩
      by_contra hne2
      rcases Nat.lt_or_ge k2 k with hlt | hge
      · have hdisj := List.pairwise_iff_getElem.mp hpw k2 k hk2 hk hlt
        rw [getD_eq_getElem ∅ hk2] at hPk2
        have hPk : canonV a b ∈ _ := hke ▸ hPc
        exact (Finset.disjoint_left.mp hdisj) hPk2 hPk
      · have hlt2 : k < k2 := by omega
        have hdisj := List.pairwise_iff_getElem.mp hpw k k2 hk hk2 hlt2
        rw [getD_eq_getElem ∅ hk2] at hPk2
        have hPk : canonV a b ∈ _ := hke ▸ hPc
        exact (Finset.disjoint_left.mp hdisj) hPk hPk2

/-! ### Concrete data for the N = 4 scenario -/

def roster4 : List String := ["p_1", "p_2", "p_3", "p_4"]

def cfgA : Config := {("p_1", "p_3"), ("p_2", "p_4")}

def cfgB : Config := {("p_1", "p_2"), ("p_3", "p_4")}

def cfgC : Config := {("p_1", "p_4"), ("p_2", "p_3")}

def st0 : Pairing := ⟨roster4, roster4, [cfgA, cfgB, cfgC], ∅⟩

def st1 : Pairing := ⟨roster4, roster4, [cfgA, cfgB], cfgC⟩

def st2 : Pairing := ⟨roster4, roster4, [cfgA], cfgB ∪ cfgC⟩

def st3 : Pairing := ⟨roster4, roster4, [], cfgA ∪ (cfgB ∪ cfgC)⟩

def rank4 : List (String × List String) :=
  [("1", ["p_1"]), ("2", ["p_2"]), ("3", ["p_4"]), ("4", ["p_3"])]

/-- C8: the concrete N = 4 scenario: with arrangement `[p_1, p_2, p_3, p_4]`
the schedule is `[{(p_1,p_3),(p_2,p_4)}, {(p_1,p_2),(p_3,p_4)},
{(p_1,p_4),(p_2,p_3)}]` in that order; the first-round selection returns
`{(p_1,p_4),(p_2,p_3)}` leaving the first two configurations; the ranking
`{1:[p_1], 2:[p_2], 3:[p_4], 4:[p_3]}` selects `{(p_1,p_2),(p_3,p_4)}`; a
final first-round selection returns `{(p_1,p_3),(p_2,p_4)}`, after which the
engine is exhausted. -/
theorem C8_concrete_scenario :
    generate_circle_configurations roster4 = some [cfgA, cfgB, cfgC] ∧
    mk_new roster4 roster4 = some st0 ∧
    generate_first_round_configuration st0 = some (cfgC, st1) ∧
    st1.possibles_configurations = [cfgA, cfgB] ∧
    generate_next_round_from_ranking st1 rank4 = some (some cfgB, st2) ∧
    st2.possibles_configurations = [cfgA] ∧
    generate_first_round_configuration st2 = some (cfgA, st3) ∧
    st3.possibles_configurations = [] ∧
    generate_first_round_configuration st3 = none := by
  decide

/-- C9 is false on the code: the generator rotates *before* pairing, so the
first configuration (`cfgA`) differs from the canonicalized seat-pairing of
the initial arrangement itself (`cfgC`). -/
theorem C9_counterexample :
    generate_circle_configurations roster4 = some [cfgA, cfgB, cfgC] ∧
    generate_pairing roster4 = some cfgC ∧
    cfgA ≠ cfgC := by
  decide

/-- C9 (amended): at each step the generator first rotates the seats and
then pairs seat `i` with seat `N-1-i` of the *rotated* seating: configuration
`j` is the canonicalized seat-pairing of the `(j+1)`-fold rotated
arrangement, and in particular the first configuration is the seat-pairing
of the rotation of the initial arrangement (not of the initial arrangement
itself). -/
theorem C9_amended {A : List String} (h2 : 2 ≤ A.length)
    (hwf : ∀ y ∈ A, WF y) :
    ∃ cfgs, generate_circle_configurations A = some cfgs ∧
      cfgs.length = A.length - 1 ∧
      (∀ j, j < A.length - 1 →
        generate_pairing (rearrange_list^[j + 1] A) = some (cfgs.getD j ∅)) ∧
      generate_pairing (rearrange_list A) = some (cfgs.getD 0 ∅) := by
  obtain ⟨x, t, rfl⟩ : ∃ x t, A = x :: t := by
    cases A with
    | nil => simp at h2
    | cons x t => exact ⟨x, t, rfl⟩
  have hne : t ≠ [] := by
    intro hc; subst hc; simp at h2
  have hgetD : ∀ j, j < (x :: t).length - 1 →
      ((List.range ((x :: t).length - 1)).map
        (fun j2 => pairingV (rearrange_list^[j2 + 1] (x :: t)))).getD j ∅ =
        pairingV (rearrange_list^[j + 1] (x :: t)) := by
    intro j hj
    have hj2 : j < ((List.range ((x :: t).length - 1)).map
        (fun j2 => pairingV (rearrange_list^[j2 + 1] (x :: t)))).length := by
      simpa using hj
    rw [getD_eq_getElem ∅ hj2, List.getElem_map, List.getElem_range]
  have hwfr : ∀ r : Nat, ∀ y ∈ rearrange_list^[r] (x :: t), WF y := by
    intro r y hy
    exact hwf y ((iterate_perm hne r).mem_iff.mp hy)
  refine ⟨_, generate_circle_eq h2 hwf, by simp, ?_, ?_⟩
  · intro j hj
    rw [hgetD j hj, generate_pairing_eq (hwfr (j + 1))]
  · have h0 : 0 < (x :: t).length - 1 := by
      have : 1 ≤ t.length := by
        cases t with | nil => exact absurd rfl hne | cons => simp
      simp
      omega
    have hwf1 : ∀ y ∈ rearrange_list (x :: t), WF y := by
      have h3 := hwfr 1
      simpa using h3
    rw [hgetD 0 h0, generate_pairing_eq hwf1]
    have he : rearrange_list^[0 + 1] (x :: t) = rearrange_list (x :: t) := by
      simp
    rw [he]

theorem C9_amended_witness :
    ∃ cfgs, generate_circle_configurations roster4 = some cfgs ∧
      cfgs.length = roster4.length - 1 ∧
      (∀ j, j < roster4.length - 1 →
        generate_pairing (rearrange_list^[j + 1] roster4) =
          some (cfgs.getD j ∅)) ∧
      generate_pairing (rearrange_list roster4) = some (cfgs.getD 0 ∅) :=
  C9_amended (by decide) (by decide)

/-- C5 is false on the code: `__init__` performs no roster validation.  An
odd roster (three players), the empty roster and a roster with a duplicated
identifier are all accepted: construction succeeds and builds an engine (for
the odd roster one player sits out of every configuration). -/
theorem C5_counterexample :
    (["p_1", "p_2", "p_3"].length % 2 = 1 ∧
      mk_new ["p_1", "p_2", "p_3"] ["p_1", "p_2", "p_3"] =
        some ⟨["p_1", "p_2", "p_3"], ["p_1", "p_2", "p_3"],
          [{("p_1", "p_2")}, {("p_1", "p_3")}], ∅⟩) ∧
    mk_new [] [] = some ⟨[], [], [], ∅⟩ ∧
    (¬ ["p_1", "p_1"].Nodup ∧
      (mk_new ["p_1", "p_1"] ["p_1", "p_1"]).isSome = true) := by
  decide

/-- C5 (amended): construction never fails on a malformed roster shape: for
every roster and arrangement whose identifiers are well-formed, `__init__`
succeeds and builds an engine - odd cardinality, emptiness and duplicate
identifiers are all accepted silently (construction can only fail on an
identifier whose numeric field is missing or unparsable). -/
theorem C5_amended (players arrangement : List String)
    (hwf : ∀ y ∈ arrangement, WF y) :
    (mk_new players arrangement).isSome = true := by
  unfold mk_new
  rcases arrangement with _ | ⟨x, t⟩
  · rfl
  rcases t with _ | ⟨y, t2⟩
  · rfl
  · rw [generate_circle_eq (by simp) hwf]
    rfl

theorem C5_amended_witness :
    (mk_new ["p_1", "p_2", "p_3"] ["p_1", "p_2", "p_3"]).isSome = true :=
  C5_amended _ _ (by decide)

/-- C1: for every even `N ≥ 2` and every arrangement that is a permutation
of a roster of `N` distinct players (well-formed identifiers with pairwise
distinct numeric indices), the generated schedule has exactly `N-1`
configurations; each is a perfect matching of the roster (every player in
exactly one canonical pair, both members of every pair on the roster and
distinct); and each of the `N(N-1)/2` canonical pairs of distinct players
occurs in exactly one configuration - so their union is exactly the set of
all pairs, with no duplicates. -/
theorem C1_circle_completeness (players arrangement : List String)
    (hperm : List.Perm arrangement players)
    (h2 : 2 ≤ players.length) (heven : players.length % 2 = 0)
    (hnd : players.Nodup) (hwf : ∀ y ∈ players, WF y)
    (hinj : InjNum players) :
    ∃ cfgs, generate_circle_configurations arrangement = some cfgs ∧
      cfgs.length = players.length - 1 ∧
      (∀ c ∈ cfgs, c.card = players.length / 2 ∧
        (∀ P ∈ c, P.1 ∈ players ∧ P.2 ∈ players ∧ P.1 ≠ P.2) ∧
        (∀ z ∈ players, ∃! P, P ∈ c ∧ inPair z P)) ∧
      (∀ a ∈ players, ∀ b ∈ players, a ≠ b →
        ∃! k, k < cfgs.length ∧ canonV a b ∈ cfgs.getD k ∅) := by
  have hlen : arrangement.length = players.length := hperm.length_eq
  have h2A : 2 ≤ arrangement.length := by omega
  have hevenA : arrangement.length % 2 = 0 := by omega
  have hndA : arrangement.Nodup := hperm.nodup_iff.mpr hnd
  have hwfA : ∀ y ∈ arrangement, WF y := fun y hy => hwf y (hperm.mem_iff.mp hy)
  have hinjA : InjNum arrangement := fun a ha b hb hab =>
    hinj a (hperm.mem_iff.mp ha) b (hperm.mem_iff.mp hb) hab
  obtain ⟨cfgs, hgen, hlen2, hmatch, _, hcover⟩ :=
    circle_schedule_props h2A hevenA hndA hwfA hinjA
  refine ⟨cfgs, hgen, by omega, ?_, ?_⟩
  · intro c hc
    obtain ⟨hcard, hmem, huniq⟩ := hmatch c hc
    refine ⟨by omega, ?_, ?_⟩
    · intro P hP
      obtain ⟨hP1, hP2, hP3⟩ := hmem P hP
      exact ⟨hperm.mem_iff.mp hP1, hperm.mem_iff.mp hP2, hP3⟩
    · intro z hz
      exact huniq z (hperm.mem_iff.mpr hz)
  · intro a ha b hb hab
    exact hcover a (hperm.mem_iff.mpr ha) b (hperm.mem_iff.mpr hb) hab

theorem C1_circle_completeness_witness :
    ∃ cfgs, generate_circle_configurations roster4 = some cfgs ∧
      cfgs.length = roster4.length - 1 ∧
      (∀ c ∈ cfgs, c.card = roster4.length / 2 ∧
        (∀ P ∈ c, P.1 ∈ roster4 ∧ P.2 ∈ roster4 ∧ P.1 ≠ P.2) ∧
        (∀ z ∈ roster4, ∃! P, P ∈ c ∧ inPair z P)) ∧
      (∀ a ∈ roster4, ∀ b ∈ roster4, a ≠ b →
        ∃! k, k < cfgs.length ∧ canonV a b ∈ cfgs.getD k ∅) :=
  C1_circle_completeness roster4 roster4 (List.Perm.refl _) (by decide)
    (by decide) (by decide) (by decide) (by decide)

/-! ### The engine invariant and the selection operations -/

/-- Two configurations holding a common match are the same configuration,
whenever the schedule is pairwise disjoint. -/
theorem disjoint_of_mem_ne {cfgs : List Config}
    (hpw : List.Pairwise (fun c d => Disjoint c d) cfgs) {c d : Config}
    (hc : c ∈ cfgs) (hd : d ∈ cfgs) (hne : c ≠ d) : Disjoint c d :=
  hpw.forall (fun _ _ h => h.symm) hc hd hne

theorem config_unique {cfgs : List Config}
    (hpw : List.Pairwise (fun c d => Disjoint c d) cfgs) {mt : Match}
    {c1 c2 : Config} (h1 : c1 ∈ cfgs) (h2 : c2 ∈ cfgs)
    (hm1 : mt ∈ c1) (hm2 : mt ∈ c2) : c1 = c2 := by
  by_contra hne
  exact (Finset.disjoint_left.mp (disjoint_of_mem_ne hpw h1 h2 hne)) hm1 hm2

/-- The engine invariant: the remaining configurations are pairwise
disjoint, disjoint from the played memory, and nonempty. -/
def Inv (p : Pairing) : Prop :=
  List.Pairwise (fun c d => Disjoint c d) p.possibles_configurations ∧
  (∀ c ∈ p.possibles_configurations, Disjoint c p.played_matches) ∧
  (∀ c ∈ p.possibles_configurations, c ≠ ∅)

instance (p : Pairing) : Decidable (Inv p) :=
  inferInstanceAs (Decidable
    (List.Pairwise (fun c d => Disjoint c d) p.possibles_configurations ∧
      (∀ c ∈ p.possibles_configurations, Disjoint c p.played_matches) ∧
      (∀ c ∈ p.possibles_configurations, c ≠ ∅)))

theorem inv_nodup {p : Pairing} (hinv : Inv p) :
    p.possibles_configurations.Nodup := by
  obtain ⟨hpw, _, hne⟩ := hinv
  apply List.Pairwise.imp_of_mem ?_ hpw
  intro c d hc _ hdisj heq
  subst heq
  exact hne c hc (disjoint_self.mp hdisj)

/-- What one successful selection step guarantees, relative to the state it
started from. -/
def StepFacts (p : Pairing) (c : Config) (p2 : Pairing) : Prop :=
  Inv p2 ∧ c ∈ p.possibles_configurations ∧ Disjoint c p.played_matches ∧
  c ≠ ∅ ∧ p2.played_matches = p.played_matches ∪ c ∧
  p2.possibles_configurations.length + 1 =
    p.possibles_configurations.length ∧
  p.played_matches ⊆ p2.played_matches ∧ c ⊆ p2.played_matches

theorem first_round_shape {p : Pairing} {c : Config} {p2 : Pairing}
    (h : generate_first_round_configuration p = some (c, p2)) :
    p.possibles_configurations.getLast? = some c ∧
    p2 = add_to_memory
      { p with possibles_configurations := p.possibles_configurations.dropLast }
      c := by
  unfold generate_first_round_configuration at h
  cases hlast : p.possibles_configurations.getLast? with
  | none => rw [hlast] at h; exact absurd h (by simp)
  | some c0 =>
    rw [hlast] at h
    simp only [Option.some.injEq, Prod.mk.injEq] at h
    obtain ⟨he1, he2⟩ := h
    constructor
    · exact congrArg some he1
    · rw [← he1]
      exact he2.symm

theorem from_match_shape {p : Pairing} {mt : Match} {c : Config} {p2 : Pairing}
    (h : generate_round_configuration_from_match p mt = some (c, p2)) :
    p.possibles_configurations.find? (fun d => decide (mt ∈ d)) = some c ∧
    p2 = add_to_memory
      { p with possibles_configurations := p.possibles_configurations.erase c }
      c := by
  unfold generate_round_configuration_from_match at h
  cases hfind : p.possibles_configurations.find? (fun d => decide (mt ∈ d)) with
  | none => rw [hfind] at h; exact absurd h (by simp)
  | some c0 =>
    rw [hfind] at h
    simp only [Option.some.injEq, Prod.mk.injEq] at h
    obtain ⟨he1, he2⟩ := h
    constructor
    · exact congrArg some he1
    · rw [← he1]
      exact he2.symm

theorem first_round_step {p : Pairing} (hinv : Inv p) {c : Config}
    {p2 : Pairing} (h : generate_first_round_configuration p = some (c, p2)) :
    StepFacts p c p2 := by
  obtain ⟨hpw, hplayed, hnonempty⟩ := hinv
  obtain ⟨hlast, rfl⟩ := first_round_shape h
  obtain ⟨ys, hys⟩ := List.getLast?_eq_some_iff.mp hlast
  have hmem : c ∈ p.possibles_configurations := by rw [hys]; simp
  have hdropmem : ∀ d ∈ p.possibles_configurations.dropLast,
      d ∈ p.possibles_configurations :=
    fun d hd => (List.dropLast_sublist _).mem hd
  have hdrop : p.possibles_configurations.dropLast = ys := by rw [hys]; simp
  have hnotin : c ∉ ys := by
    have hnd : p.possibles_configurations.Nodup :=
      inv_nodup ⟨hpw, hplayed, hnonempty⟩
    rw [hys] at hnd
    have hdisj2 := List.disjoint_of_nodup_append hnd
    intro hc
    exact hdisj2 hc (by simp)
  refine ⟨⟨?_, ?_, ?_⟩, hmem, hplayed c hmem, hnonempty c hmem, rfl, ?_, ?_, ?_⟩
  · exact hpw.sublist (List.dropLast_sublist _)
  · intro d hd
    simp only [add_to_memory] at hd ⊢
    have hd2 := hdropmem d hd
    have hne : d ≠ c := by
      rw [hdrop] at hd
      intro hdc; subst hdc; exact hnotin hd
    rw [Finset.disjoint_union_right]
    exact ⟨hplayed d hd2, disjoint_of_mem_ne hpw hd2 hmem hne⟩
  · intro d hd
    exact hnonempty d (hdropmem d hd)
  · show p.possibles_configurations.dropLast.length + 1 = _
    rw [hys]; simp
  · exact Finset.subset_union_left
  · exact Finset.subset_union_right

theorem from_match_step {p : Pairing} (hinv : Inv p) {mt : Match} {c : Config}
    {p2 : Pairing}
    (h : generate_round_configuration_from_match p mt = some (c, p2)) :
    StepFacts p c p2 ∧ mt ∈ c := by
  obtain ⟨hpw, hplayed, hnonempty⟩ := hinv
  obtain ⟨hfind, rfl⟩ := from_match_shape h
  have hmem : c ∈ p.possibles_configurations := List.mem_of_find?_eq_some hfind
  have hmt : mt ∈ c := by simpa using List.find?_some hfind
  have hnd : p.possibles_configurations.Nodup :=
    inv_nodup ⟨hpw, hplayed, hnonempty⟩
  have herasemem : ∀ d ∈ p.possibles_configurations.erase c,
      d ≠ c ∧ d ∈ p.possibles_configurations := fun d hd =>
    hnd.mem_erase_iff.mp hd
  refine ⟨⟨⟨?_, ?_, ?_⟩, hmem, hplayed c hmem, hnonempty c hmem, rfl, ?_, ?_, ?_⟩, hmt⟩
  · exact hpw.sublist (List.erase_sublist _ _)
  · intro d hd
    simp only [add_to_memory] at hd ⊢
    obtain ⟨hne, hd2⟩ := herasemem d hd
    rw [Finset.disjoint_union_right]
    exact ⟨hplayed d hd2, disjoint_of_mem_ne hpw hd2 hmem hne⟩
  · intro d hd
    exact hnonempty d (herasemem d hd).2
  · show (p.possibles_configurations.erase c).length + 1 = _
    rw [List.length_erase_of_mem hmem]
    have := List.length_pos.mpr (List.ne_nil_of_mem hmem)
    omega
  · exact Finset.subset_union_left
  · exact Finset.subset_union_right

theorem try_scan_none_state :
    ∀ (pairs : List (String × String)) {p p2 : Pairing},
      try_scan p pairs = some (none, p2) → p2 = p := by
  intro pairs
  induction pairs with
  | nil =>
    intro p p2 h
    simp only [try_scan, Option.some.injEq, Prod.mk.injEq] at h
    exact h.2.symm
  | cons pr rest ih =>
    intro p p2 h
    obtain ⟨a, b⟩ := pr
    cases hsp : sort_pair a b with
    | none =>
      simp only [try_scan, hsp] at h
      exact Option.noConfusion h
    | some mt =>
      simp only [try_scan, hsp] at h
      by_cases hmem : mt ∈ p.played_matches
      · rw [if_pos hmem] at h
        exact ih h
      · rw [if_neg hmem] at h
        cases hfm : generate_round_configuration_from_match p mt with
        | none =>
          rw [hfm] at h
          simp only [Option.some.injEq, Prod.mk.injEq] at h
          exact h.2.symm
        | some cp =>
          obtain ⟨c2, p3⟩ := cp
          rw [hfm] at h
          simp at h

theorem try_scan_success :
    ∀ (pairs : List (String × String)) {p : Pairing} {c : Config}
      {p2 : Pairing}, Inv p → try_scan p pairs = some (some c, p2) →
      StepFacts p c p2 := by
  intro pairs
  induction pairs with
  | nil =>
    intro p c p2 _ h
    simp only [try_scan, Option.some.injEq, Prod.mk.injEq] at h
    exact absurd h.1 (by simp)
  | cons pr rest ih =>
    intro p c p2 hinv h
    obtain ⟨a, b⟩ := pr
    cases hsp : sort_pair a b with
    | none =>
      simp only [try_scan, hsp] at h
      exact Option.noConfusion h
    | some mt =>
      simp only [try_scan, hsp] at h
      by_cases hmem : mt ∈ p.played_matches
      · rw [if_pos hmem] at h
        exact ih hinv h
      · rw [if_neg hmem] at h
        cases hfm : generate_round_configuration_from_match p mt with
        | none =>
          rw [hfm] at h
          simp at h
        | some cp =>
          obtain ⟨c2, p3⟩ := cp
          rw [hfm] at h
          simp only [Option.some.injEq, Prod.mk.injEq] at h
          obtain ⟨hc, hp⟩ := h
          rw [← hc, ← hp] at *
          exact (from_match_step hinv hfm).1

theorem try_to_none_state {p p2 : Pairing} {l : List String}
    (h : try_to_generate_next_round p l = some (none, p2)) : p2 = p :=
  try_scan_none_state (scan_pairs l) h

theorem try_to_success {p : Pairing} {c : Config} {p2 : Pairing}
    {l : List String} (hinv : Inv p)
    (h : try_to_generate_next_round p l = some (some c, p2)) :
    StepFacts p c p2 :=
  try_scan_success (scan_pairs l) hinv h

theorem ranking_loop_success :
    ∀ (groups : List (List String)) (acc : List String) {p : Pairing}
      {c : Config} {p2 : Pairing}, Inv p →
      ranking_loop p none acc groups = some (some c, p2) →
      StepFacts p c p2 := by
  intro groups
  induction groups with
  | nil =>
    intro acc p c p2 _ h
    simp [ranking_loop] at h
  | cons g rest ih =>
    intro acc p c p2 hinv h
    cases hts : try_to_generate_next_round p (acc ++ g) with
    | none =>
      simp only [ranking_loop, hts] at h
      exact Option.noConfusion h
    | some rp =>
      obtain ⟨ropt, p3⟩ := rp
      cases ropt with
      | none =>
        simp only [ranking_loop, hts] at h
        have hp3 : p3 = p := try_to_none_state hts
        subst hp3
        exact ih (acc ++ g) hinv h
      | some cfg =>
        simp only [ranking_loop, hts] at h
        have hfacts := try_to_success hinv hts
        have hne : ¬ cfg = ∅ := hfacts.2.2.2.1
        rw [if_neg hne] at h
        simp only [Option.some.injEq, Prod.mk.injEq] at h
        obtain ⟨hc, hp⟩ := h
        rw [← hc, ← hp] at *
        exact hfacts

theorem apply_op_step {p : Pairing} (hinv : Inv p) {op : Op} {c : Config}
    {p2 : Pairing} (h : apply_op p op = some (c, p2)) : StepFacts p c p2 := by
  cases op with
  | first => exact first_round_step hinv h
  | fromMatch mt => exact (from_match_step hinv h).1
  | ranking r =>
    simp only [apply_op] at h
    cases hrank : generate_next_round_from_ranking p r with
    | none => rw [hrank] at h; exact absurd h (by simp)
    | some rp =>
      obtain ⟨ropt, p3⟩ := rp
      cases ropt with
      | none => rw [hrank] at h; exact absurd h (by simp)
      | some cfg =>
        rw [hrank] at h
        simp only [Option.some.injEq, Prod.mk.injEq] at h
        obtain ⟨hc, hp⟩ := h
        rw [← hc, ← hp] at *
        unfold generate_next_round_from_ranking at hrank
        cases hk : r.mapM (fun kv => (py_int kv.1).map fun n => (n, kv.2)) with
        | none => rw [hk] at hrank; exact absurd hrank (by simp)
        | some keyed =>
          rw [hk] at hrank
          exact ranking_loop_success _ _ hinv hrank

/-- Facts about a whole sequence of selection calls starting from a state
satisfying the invariant: the invariant is maintained, every successful call
removes exactly one configuration, the memory only grows, every returned
configuration is disjoint from the starting memory and ends up recorded, and
the returned configurations are pairwise disjoint. -/
theorem run_facts :
    ∀ (ops : List Op) (p : Pairing), Inv p →
      Inv (run p ops).2 ∧
      (run p ops).2.possibles_configurations.length + (run p ops).1.length =
        p.possibles_configurations.length ∧
      p.played_matches ⊆ (run p ops).2.played_matches ∧
      (∀ c ∈ (run p ops).1,
        Disjoint c p.played_matches ∧ c ⊆ (run p ops).2.played_matches) ∧
      List.Pairwise (fun c d => Disjoint c d) (run p ops).1 := by
  intro ops
  induction ops with
  | nil =>
    intro p hinv
    exact ⟨hinv, by simp [run], by simp [run], by simp [run], by simp [run]⟩
  | cons op rest ih =>
    intro p hinv
    cases hop : apply_op p op with
    | none =>
      have hrw : run p (op :: rest) = run p rest := by
        simp only [run, hop]
      rw [hrw]
      exact ih p hinv
    | some cp =>
      obtain ⟨c, p2⟩ := cp
      have hstep := apply_op_step hinv hop
      obtain ⟨hinv2, hmem, hdisj, hne, hplayed2, hlen, hmono, hrec⟩ := hstep
      have hrw : run p (op :: rest) =
          (c :: (run p2 rest).1, (run p2 rest).2) := by
        simp only [run, hop]
      rw [hrw]
      obtain ⟨ih1, ih2, ih3, ih4, ih5⟩ := ih p2 hinv2
      refine ⟨ih1, ?_, ?_, ?_, ?_⟩
      · simp only [List.length_cons]
        omega
      · exact subset_trans hmono ih3
      · intro d hd
        rcases List.mem_cons.mp hd with rfl | hd2
        · exact ⟨hdisj, subset_trans hrec ih3⟩
        · obtain ⟨hdd, hdp⟩ := ih4 d hd2
          constructor
          · apply Finset.disjoint_of_subset_right ?_ hdd
            rw [hplayed2]
            exact Finset.subset_union_left
          · exact hdp
      · rw [List.pairwise_cons]
        refine ⟨?_, ih5⟩
        intro d hd
        obtain ⟨hdd, _⟩ := ih4 d hd
        have hcd : Disjoint d c := by
          apply Finset.disjoint_of_subset_right ?_ hdd
          rw [hplayed2]
          exact Finset.subset_union_right
        exact hcd.symm

/-- A freshly built engine satisfies the invariant: its schedule is the
pairwise-disjoint circle schedule and its memory is empty. -/
theorem mk_new_inv {players arrangement : List String} {p0 : Pairing}
    (hperm : List.Perm arrangement players) (h2 : 2 ≤ players.length)
    (heven : players.length % 2 = 0) (hnd : players.Nodup)
    (hwf : ∀ y ∈ players, WF y) (hinj : InjNum players)
    (h : mk_new players arrangement = some p0) :
    Inv p0 ∧ p0.possibles_configurations.length = players.length - 1 ∧
      p0.played_matches = ∅ := by
  have hlen : arrangement.length = players.length := hperm.length_eq
  obtain ⟨cfgs, hgen, hlen2, hmatch, hpw, _⟩ :=
    circle_schedule_props (by omega) (by omega)
      (hperm.nodup_iff.mpr hnd)
      (fun y hy => hwf y (hperm.mem_iff.mp hy))
      (fun a ha b hb hab =>
        hinj a (hperm.mem_iff.mp ha) b (hperm.mem_iff.mp hb) hab)
  unfold mk_new at h
  rw [hgen] at h
  have h2 : some (⟨players, arrangement, cfgs, ∅⟩ : Pairing) = some p0 := h
  obtain rfl := Option.some.inj h2
  refine ⟨⟨hpw, ?_, ?_⟩, by rw [show (⟨players, arrangement, cfgs, ∅⟩ :
    Pairing).possibles_configurations = cfgs from rfl, hlen2, hlen], rfl⟩
  · intro c _
    exact Finset.disjoint_empty_right c
  · intro c hc
    obtain ⟨hcard, _, _⟩ := hmatch c hc
    intro hcempty
    rw [hcempty] at hcard
    simp at hcard
    omega

theorem empty_from_match {p : Pairing}
    (hp : p.possibles_configurations = []) (mt : Match) :
    generate_round_configuration_from_match p mt = none := by
  simp [generate_round_configuration_from_match, hp]

theorem empty_try_scan {p : Pairing}
    (hp : p.possibles_configurations = []) :
    ∀ pairs, try_scan p pairs = none ∨ try_scan p pairs = some (none, p) := by
  intro pairs
  induction pairs with
  | nil => exact Or.inr rfl
  | cons pr rest ih =>
    obtain ⟨a, b⟩ := pr
    cases hsp : sort_pair a b with
    | none =>
      left
      simp [try_scan, hsp]
    | some mt =>
      by_cases hmem : mt ∈ p.played_matches
      · simpa [try_scan, hsp, hmem] using ih
      · right
        simp [try_scan, hsp, hmem, empty_from_match hp mt]

theorem empty_ranking_loop {p : Pairing}
    (hp : p.possibles_configurations = []) :
    ∀ (groups : List (List String)) (acc : List String),
      ranking_loop p none acc groups = none ∨
        ranking_loop p none acc groups = some (none, p) := by
  intro groups
  induction groups with
  | nil => exact fun acc => Or.inr rfl
  | cons g rest ih =>
    intro acc
    rcases empty_try_scan hp (scan_pairs (acc ++ g)) with hts | hts
    · left
      simp only [ranking_loop]
      rw [show try_to_generate_next_round p (acc ++ g) =
        try_scan p (scan_pairs (acc ++ g)) from rfl, hts]
    · have h2 := ih (acc ++ g)
      simp only [ranking_loop]
      rw [show try_to_generate_next_round p (acc ++ g) =
        try_scan p (scan_pairs (acc ++ g)) from rfl, hts]
      exact h2

theorem empty_ranking {p : Pairing}
    (hp : p.possibles_configurations = [])
    (r : List (String × List String)) :
    generate_next_round_from_ranking p r = none ∨
      generate_next_round_from_ranking p r = some (none, p) := by
  unfold generate_next_round_from_ranking
  cases hk : r.mapM (fun kv => (py_int kv.1).map fun n => (n, kv.2)) with
  | none => exact Or.inl rfl
  | some keyed => exact empty_ranking_loop hp _ _

/-- C2: for every engine freshly built from an even-sized roster of distinct
players and every finite sequence of selection calls on that one instance,
no canonical match appears in more than one successfully returned
configuration (the returned configurations are pairwise disjoint), and
every reachable state keeps the remaining configurations pairwise disjoint
and disjoint from the played-match memory. -/
theorem C2_no_repeat (players arrangement : List String)
    (hperm : List.Perm arrangement players) (h2 : 2 ≤ players.length)
    (heven : players.length % 2 = 0) (hnd : players.Nodup)
    (hwf : ∀ y ∈ players, WF y) (hinj : InjNum players)
    (p0 : Pairing) (hmk : mk_new players arrangement = some p0)
    (ops : List Op) :
    List.Pairwise (fun c d => Disjoint c d) (run p0 ops).1 ∧
    List.Pairwise (fun c d => Disjoint c d)
      (run p0 ops).2.possibles_configurations ∧
    (∀ c ∈ (run p0 ops).2.possibles_configurations,
      Disjoint c (run p0 ops).2.played_matches) := by
  obtain ⟨hinv, _, _⟩ := mk_new_inv hperm h2 heven hnd hwf hinj hmk
  obtain ⟨⟨hfpw, hfdisj, _⟩, _, _, _, hret⟩ := run_facts ops p0 hinv
  exact ⟨hret, hfpw, hfdisj⟩

theorem C2_no_repeat_witness :
    List.Pairwise (fun c d => Disjoint c d) (run st0 [Op.first]).1 ∧
    List.Pairwise (fun c d => Disjoint c d)
      (run st0 [Op.first]).2.possibles_configurations ∧
    (∀ c ∈ (run st0 [Op.first]).2.possibles_configurations,
      Disjoint c (run st0 [Op.first]).2.played_matches) :=
  C2_no_repeat roster4 roster4 (List.Perm.refl _) (by decide) (by decide)
    (by decide) (by decide) (by decide) st0 (by decide) [Op.first]

/-- C4: once exactly `N - 1` selection calls have succeeded on an engine
built from an even-sized roster of `N` distinct players, any further
selection reports exhaustion and never a configuration: the first-round
selection signals no result (Python raises `IndexError` from `pop` on the
empty list), and a ranking-weighted selection either raises on a malformed
ranking or returns Python's `None` with the engine unchanged - it can never
return a configuration. -/
theorem C4_exhaustion (players arrangement : List String)
    (hperm : List.Perm arrangement players) (h2 : 2 ≤ players.length)
    (heven : players.length % 2 = 0) (hnd : players.Nodup)
    (hwf : ∀ y ∈ players, WF y) (hinj : InjNum players)
    (p0 : Pairing) (hmk : mk_new players arrangement = some p0)
    (ops : List Op)
    (hall : (run p0 ops).1.length = players.length - 1) :
    generate_first_round_configuration (run p0 ops).2 = none ∧
    (∀ r, generate_next_round_from_ranking (run p0 ops).2 r = none ∨
      generate_next_round_from_ranking (run p0 ops).2 r =
        some (none, (run p0 ops).2)) ∧
    (∀ r c p2,
      generate_next_round_from_ranking (run p0 ops).2 r ≠
        some (some c, p2)) := by
  obtain ⟨hinv, hlen0, _⟩ := mk_new_inv hperm h2 heven hnd hwf hinj hmk
  obtain ⟨_, hlen, _, _, _⟩ := run_facts ops p0 hinv
  have hempty : (run p0 ops).2.possibles_configurations = [] := by
    rw [← List.length_eq_zero]
    omega
  refine ⟨?_, fun r => empty_ranking hempty r, ?_⟩
  · simp [generate_first_round_configuration, hempty]
  · intro r c p2 hc
    rcases empty_ranking hempty r with hr | hr <;> rw [hr] at hc <;> simp at hc

theorem C4_exhaustion_witness :
    (run st0 [Op.first, Op.first, Op.first]).1.length = roster4.length - 1 ∧
    (generate_first_round_configuration
      (run st0 [Op.first, Op.first, Op.first]).2 = none ∧
    (∀ r, generate_next_round_from_ranking
        (run st0 [Op.first, Op.first, Op.first]).2 r = none ∨
      generate_next_round_from_ranking
        (run st0 [Op.first, Op.first, Op.first]).2 r =
        some (none, (run st0 [Op.first, Op.first, Op.first]).2)) ∧
    (∀ r c p2,
      generate_next_round_from_ranking
        (run st0 [Op.first, Op.first, Op.first]).2 r ≠
        some (some c, p2))) :=
  ⟨by decide,
    C4_exhaustion roster4 roster4 (List.Perm.refl _) (by decide) (by decide)
      (by decide) (by decide) (by decide) st0 (by decide)
      [Op.first, Op.first, Op.first] (by decide)⟩

/-- C7: `generate_round_configuration_from_match` returns a configuration
exactly when some remaining configuration contains the match; on success it
returns the first such configuration, removes it from the remaining
schedule and records all of its matches, leaving the other fields untouched
(and under the engine invariant that configuration is unique); when no
remaining configuration contains the match it signals no result, with no
state to return - the engine is left unchanged. -/
theorem C7_from_match_characterization (p : Pairing) (m : Match) :
    ((∃ c ∈ p.possibles_configurations, m ∈ c) ↔
      ∃ r, generate_round_configuration_from_match p m = some r) ∧
    (∀ c p2, generate_round_configuration_from_match p m = some (c, p2) →
      m ∈ c ∧ c ∈ p.possibles_configurations ∧
      p2.possibles_configurations = p.possibles_configurations.erase c ∧
      p2.played_matches = p.played_matches ∪ c ∧
      p2.list_of_players = p.list_of_players ∧
      p2.initial_configuration = p.initial_configuration) ∧
    ((∀ c ∈ p.possibles_configurations, m ∉ c) →
      generate_round_configuration_from_match p m = none) ∧
    (List.Pairwise (fun c d => Disjoint c d) p.possibles_configurations →
      ∀ c1 ∈ p.possibles_configurations, ∀ c2 ∈ p.possibles_configurations,
        m ∈ c1 → m ∈ c2 → c1 = c2) := by
  refine ⟨⟨?_, ?_⟩, ?_, ?_, ?_⟩
  · rintro ⟨c, hc, hm⟩
    unfold generate_round_configuration_from_match
    cases hfind : p.possibles_configurations.find? (fun d => decide (m ∈ d)) with
    | none =>
      rw [List.find?_eq_none] at hfind
      exact absurd (by simpa using hm) (hfind c hc)
    | some c0 => exact ⟨_, rfl⟩
  · rintro ⟨r, hr⟩
    obtain ⟨c, p2⟩ := r
    obtain ⟨hfind, _⟩ := from_match_shape hr
    exact ⟨c, List.mem_of_find?_eq_some hfind, by simpa using List.find?_some hfind⟩
  · intro c p2 h
    obtain ⟨hfind, rfl⟩ := from_match_shape h
    exact ⟨by simpa using List.find?_some hfind,
      List.mem_of_find?_eq_some hfind, rfl, rfl, rfl, rfl⟩
  · intro hnone
    unfold generate_round_configuration_from_match
    rw [List.find?_eq_none.mpr (fun c hc => by simpa using hnone c hc)]
  · intro hpw c1 h1 c2 h2x hm1 hm2
    exact config_unique hpw h1 h2x hm1 hm2

theorem C7_from_match_characterization_witness :
    ((∃ c ∈ st0.possibles_configurations, ("p_1", "p_2") ∈ c) ↔
      ∃ r, generate_round_configuration_from_match st0 ("p_1", "p_2") =
        some r) ∧
    (∀ c p2, generate_round_configuration_from_match st0 ("p_1", "p_2") =
        some (c, p2) →
      ("p_1", "p_2") ∈ c ∧ c ∈ st0.possibles_configurations ∧
      p2.possibles_configurations = st0.possibles_configurations.erase c ∧
      p2.played_matches = st0.played_matches ∪ c ∧
      p2.list_of_players = st0.list_of_players ∧
      p2.initial_configuration = st0.initial_configuration) ∧
    ((∀ c ∈ st0.possibles_configurations, ("p_1", "p_2") ∉ c) →
      generate_round_configuration_from_match st0 ("p_1", "p_2") = none) ∧
    (List.Pairwise (fun c d => Disjoint c d) st0.possibles_configurations →
      ∀ c1 ∈ st0.possibles_configurations,
        ∀ c2 ∈ st0.possibles_configurations,
        ("p_1", "p_2") ∈ c1 → ("p_1", "p_2") ∈ c2 → c1 = c2) :=
  C7_from_match_characterization st0 ("p_1", "p_2")

/-- C3: reconstruction. If the persisted played-match list is exactly the
union of the matches of a sub-collection `S` of the regenerated schedule,
then `instantiate_pairing` rebuilds the engine with the regenerated
schedule filtered to exactly the configurations not in `S` (in schedule
order), the played memory equal to the persisted set, and the persisted
roster and arrangement installed - i.e. the reconstructed engine still
offers exactly the configurations the original engine had not selected. -/
theorem C3_reconstruction (players arrangement : List String)
    (hperm : List.Perm arrangement players) (h2 : 2 ≤ players.length)
    (heven : players.length % 2 = 0) (hnd : players.Nodup)
    (hwf : ∀ y ∈ players, WF y) (hinj : InjNum players)
    (cfgs : List Config)
    (hgen : generate_circle_configurations arrangement = some cfgs)
    (S : Finset Config) (hS : ∀ c ∈ S, c ∈ cfgs)
    (played_list : List Match)
    (hsub : ∀ mt ∈ played_list, ∃ c ∈ S, mt ∈ c)
    (hsup : ∀ c ∈ S, ∀ mt ∈ c, mt ∈ played_list) :
    instantiate_pairing players arrangement played_list =
      some { list_of_players := players
             initial_configuration := arrangement
             possibles_configurations :=
               cfgs.filter (fun c => decide (c ∉ S))
             played_matches := played_list.toFinset } := by
  have hlen : arrangement.length = players.length := hperm.length_eq
  obtain ⟨cfgs2, hgen2, _, hmatch, hpw, _⟩ :=
    circle_schedule_props (by omega) (by omega)
      (hperm.nodup_iff.mpr hnd)
      (fun y hy => hwf y (hperm.mem_iff.mp hy))
      (fun a ha b hb hab =>
        hinj a (hperm.mem_iff.mp ha) b (hperm.mem_iff.mp hb) hab)
  have hcfgs : cfgs2 = cfgs := by
    have h3 := hgen2.symm.trans hgen
    exact Option.some.inj h3
  rw [hcfgs] at hmatch hpw
  have hfe : cfgs.filter (fun c => decide (c ∩ played_list.toFinset = ∅)) =
      cfgs.filter (fun c => decide (c ∉ S)) := by
    apply List.filter_congr
    intro c hc
    rw [decide_eq_decide]
    constructor
    · intro hint hcS
      obtain ⟨hcard, _, _⟩ := hmatch c hc
      have hpos : 0 < c.card := by
        rw [hcard]
        omega
      obtain ⟨mt, hmt⟩ := Finset.card_pos.mp hpos
      have hmtp : mt ∈ played_list.toFinset :=
        List.mem_toFinset.mpr (hsup c hcS mt hmt)
      have hmem := Finset.mem_inter.mpr ⟨hmt, hmtp⟩
      rw [hint] at hmem
      exact absurd hmem (Finset.not_mem_empty mt)
    · intro hcS
      apply Finset.eq_empty_iff_forall_not_mem.mpr
      intro mt hmem
      obtain ⟨hmtc, hmtp⟩ := Finset.mem_inter.mp hmem
      obtain ⟨d, hdS, hmtd⟩ := hsub mt (List.mem_toFinset.mp hmtp)
      have hcd : c = d := config_unique hpw hc (hS d hdS) hmtc hmtd
      exact hcS (hcd ▸ hdS)
  unfold instantiate_pairing
  rw [hgen]
  show some ({ list_of_players := players
               initial_configuration := arrangement
               possibles_configurations :=
                 cfgs.filter fun c => decide (c ∩ played_list.toFinset = ∅)
               played_matches := played_list.toFinset } : Pairing) = _
  rw [hfe]

theorem C3_reconstruction_witness :
    instantiate_pairing roster4 roster4 [("p_1", "p_4"), ("p_2", "p_3")] =
      some { list_of_players := roster4
             initial_configuration := roster4
             possibles_configurations :=
               [cfgA, cfgB, cfgC].filter
                 (fun c => decide (c ∉ ({cfgC} : Finset Config)))
             played_matches :=
               [(("p_1", "p_4") : Match), ("p_2", "p_3")].toFinset } :=
  C3_reconstruction roster4 roster4 (List.Perm.refl _) (by decide) (by decide)
    (by decide) (by decide) (by decide) [cfgA, cfgB, cfgC] (by decide)
    {cfgC} (by decide) [("p_1", "p_4"), ("p_2", "p_3")] (by decide) (by decide)

/-! ### Canonicalization is total only on well-formed identifiers -/

theorem sort_pair_none {a b : String} (h : ¬ (WF a ∧ WF b)) :
    sort_pair a b = none := by
  unfold sort_pair
  cases ha : get_player_number a with
  | none => rfl
  | some na =>
    cases hb : get_player_number b with
    | none => rfl
    | some nb =>
      exact absurd ⟨by unfold WF; rw [ha]; rfl, by unfold WF; rw [hb]; rfl⟩ h

theorem foldlM_option_none {α β : Type} (f : β → α → Option β) (l : List α)
    {a : α} (ha : a ∈ l) (hf : ∀ b, f b a = none) :
    ∀ init, l.foldlM f init = none := by
  induction l with
  | nil => cases ha
  | cons x xs ih =>
    intro init
    rw [List.foldlM_cons]
    rcases List.mem_cons.mp ha with rfl | hmem
    · rw [hf init]
      rfl
    · cases hx : f init x with
      | none => rfl
      | some b =>
        show xs.foldlM f b = none
        exact ih hmem b

theorem generate_pairing_none {l : List String} (heven : l.length % 2 = 0)
    {x : String} (hx : x ∈ l) (hbad : ¬ WF x) : generate_pairing l = none := by
  obtain ⟨k, hk, hke⟩ := List.getElem_of_mem hx
  have hkD : l.getD k "" = x := by rw [getD_eq_getElem _ hk, hke]
  have hidx : ∃ i0, i0 < l.length / 2 ∧ (i0 = k ∨ l.length - i0 - 1 = k) := by
    rcases Nat.lt_or_ge k (l.length / 2) with hc | hc
    · exact ⟨k, hc, Or.inl rfl⟩
    · exact ⟨l.length - k - 1, by omega, Or.inr (by omega)⟩
  obtain ⟨i0, hi0, hcase⟩ := hidx
  apply foldlM_option_none _ _ (List.mem_range.mpr hi0)
  intro s
  have hbadpair : sort_pair (l.getD i0 "") (l.getD (l.length - i0 - 1) "") =
      none := by
    apply sort_pair_none
    rcases hcase with rfl | hke2
    · rw [hkD]
      intro hcon
      exact hbad hcon.1
    · rw [hke2, hkD]
      intro hcon
      exact hbad hcon.2
  show (do
    let pair ← sort_pair (l.getD i0 "") (l.getD (l.length - i0 - 1) "")
    pure (insert pair s) : Option Config) = none
  rw [hbadpair]
  rfl

theorem generate_circle_none {A : List String} (h2 : 2 ≤ A.length)
    (heven : A.length % 2 = 0) {x : String} (hx : x ∈ A) (hbad : ¬ WF x) :
    generate_circle_configurations A = none := by
  obtain ⟨a, t, rfl⟩ : ∃ a t, A = a :: t := by
    cases A with
    | nil => simp at h2
    | cons a t => exact ⟨a, t, rfl⟩
  have hne : t ≠ [] := by
    intro hc; subst hc; simp at h2
  have hperm := rearrange_perm h2
  have hlen : (rearrange_list (a :: t)).length = (a :: t).length :=
    hperm.length_eq
  have hpn : generate_pairing (rearrange_list (a :: t)) = none :=
    generate_pairing_none (by omega) (hperm.mem_iff.mpr hx) hbad
  unfold generate_circle_configurations
  obtain ⟨m, hm⟩ : ∃ m, (a :: t).length - 1 = m + 1 := by
    refine ⟨(a :: t).length - 2, ?_⟩
    omega
  rw [hm]
  show (do
    let cfg ← generate_pairing (rearrange_list (a :: t))
    let rest ← circle_loop (rearrange_list (a :: t)) m
    pure (cfg :: rest) : Option (List Config)) = none
  rw [hpn]
  rfl

/-- C10: the engine's pair-canonicalizing operations are total only for
identifiers of the shape `prefix '_' integer`: `get_player_number` returns
an integer exactly when the identifier, split on `'_'`, has a second field
that parses as a (Python) decimal integer; canonicalizing a pair with a
malformed identifier raises; schedule generation over an even roster
containing a malformed identifier fails instead of returning a schedule
(so construction fails for such a roster); and the pairwise scan fails as
soon as it canonicalizes a pair with a malformed identifier (in particular
whenever a malformed identifier heads the scanned pool). -/
theorem C10_wellformed_ids_required :
    (∀ s : String, (get_player_number s).isSome ↔
      ∃ f, (split_chars '_' s.toList).get? 1 = some f ∧
        (py_int_chars f).isSome) ∧
    (∀ a b : String, ¬ (WF a ∧ WF b) → sort_pair a b = none) ∧
    (∀ l : List String, l.length % 2 = 0 → (∃ x ∈ l, ¬ WF x) →
      generate_pairing l = none) ∧
    (∀ A : List String, 2 ≤ A.length → A.length % 2 = 0 →
      (∃ x ∈ A, ¬ WF x) →
      generate_circle_configurations A = none ∧
      (∀ players, mk_new players A = none)) ∧
    (∀ (p : Pairing) (a : String), ¬ WF a → ∀ (b : String)
      (rest : List String),
      try_to_generate_next_round p (a :: b :: rest) = none) := by
  refine ⟨?_, fun a b h => sort_pair_none h, ?_, ?_, ?_⟩
  · intro s
    unfold get_player_number
    cases hsplit : (split_chars '_' s.toList).get? 1 with
    | none => simp
    | some f => simp
  · rintro l heven ⟨x, hx, hbad⟩
    exact generate_pairing_none heven hx hbad
  · rintro A h2 heven ⟨x, hx, hbad⟩
    have hnone := generate_circle_none h2 heven hx hbad
    refine ⟨hnone, fun players => ?_⟩
    unfold mk_new
    rw [hnone]
    rfl
  · intro p a hbad b rest
    have hsp : sort_pair a b = none := sort_pair_none (fun hc => hbad hc.1)
    show try_scan p (scan_pairs (a :: b :: rest)) = none
    simp only [scan_pairs, List.map_cons, List.cons_append, try_scan, hsp]

theorem C10_wellformed_ids_required_witness :
    ¬ (WF "px" ∧ WF "p_1") ∧
    sort_pair "px" "p_1" = none ∧
    generate_pairing ["px", "p_1"] = none ∧
    generate_circle_configurations ["px", "p_1"] = none ∧
    mk_new ["px", "p_1"] ["px", "p_1"] = none ∧
    try_to_generate_next_round st0 ["px", "p_1"] = none :=
  ⟨by decide,
    C10_wellformed_ids_required.2.1 "px" "p_1" (by decide),
    C10_wellformed_ids_required.2.2.1 ["px", "p_1"] (by decide)
      ⟨"px", by decide⟩,
    (C10_wellformed_ids_required.2.2.2.1 ["px", "p_1"] (by decide) (by decide)
      ⟨"px", by decide⟩).1,
    (C10_wellformed_ids_required.2.2.2.1 ["px", "p_1"] (by decide) (by decide)
      ⟨"px", by decide⟩).2 ["px", "p_1"],
    C10_wellformed_ids_required.2.2.2.2 st0 "px" (by decide) "p_1" []⟩

/-! ### C6: the ranking-weighted selection algorithm -/

theorem scan_pairs_mem :
    ∀ {l : List String} {pr : String × String}, pr ∈ scan_pairs l →
      pr.1 ∈ l ∧ pr.2 ∈ l := by
  intro l
  induction l with
  | nil => intro pr h; cases h
  | cons x xs ih =>
    intro pr h
    rcases List.mem_append.mp h with h2 | h2
    · obtain ⟨y, hy, rfl⟩ := List.mem_map.mp h2
      exact ⟨by simp, by simp [hy]⟩
    · obtain ⟨h3, h4⟩ := ih h2
      exact ⟨by simp [h3], by simp [h4]⟩

/-- The first pair of the scan order whose canonical form is not in the
played memory - the "first untested-and-unplayed pair" of the spec's
pairwise scan (a pair that cannot be canonicalized is skipped; under the
well-formedness hypotheses of the theorems below that case never arises). -/
def first_unplayed (p : Pairing) : List (String × String) → Option Match
  | [] => none
  | (a, b) :: rest =>
    match sort_pair a b with
    | none => first_unplayed p rest
    | some mt =>
      if mt ∈ p.played_matches then first_unplayed p rest else some mt

/-- The ranking-weighted selection algorithm exactly as the spec states it:
accumulate each rank group in order into the pool; scan the pool's ordered
pairs for the first unplayed pair; if one is found, select the entire
configuration containing it via the anchor-based selection and return
immediately on success; once every group has been accumulated without a
selection, yield no result. -/
def ranking_spec (p : Pairing) :
    List String → List (List String) → Option Config × Pairing
  | _, [] => (none, p)
  | acc, g :: rest =>
    match first_unplayed p (scan_pairs (acc ++ g)) with
    | none => ranking_spec p (acc ++ g) rest
    | some mt =>
      match generate_round_configuration_from_match p mt with
      | none => ranking_spec p (acc ++ g) rest
      | some (c, p2) => (some c, p2)

theorem try_scan_fu {p : Pairing} :
    ∀ {pairs : List (String × String)},
      (∀ pr ∈ pairs, (sort_pair pr.1 pr.2).isSome) →
      try_scan p pairs =
        match first_unplayed p pairs with
        | none => some (none, p)
        | some mt =>
          match generate_round_configuration_from_match p mt with
          | none => some (none, p)
          | some (c, p2) => some (some c, p2) := by
  intro pairs
  induction pairs with
  | nil => intro _; rfl
  | cons pr rest ih =>
    intro hwfp
    obtain ⟨a, b⟩ := pr
    obtain ⟨mt, hmt⟩ := Option.isSome_iff_exists.mp (hwfp (a, b) (by simp))
    have hrest : ∀ pr2 ∈ rest, (sort_pair pr2.1 pr2.2).isSome :=
      fun pr2 h2 => hwfp pr2 (by simp [h2])
    by_cases hmem : mt ∈ p.played_matches
    · simp only [try_scan, first_unplayed, hmt, if_pos hmem]
      exact ih hrest
    · simp only [try_scan, first_unplayed, hmt, if_neg hmem]

theorem ranking_loop_eq_spec :
    ∀ (groups : List (List String)) (acc : List String) (p : Pairing),
      Inv p → (∀ x ∈ acc, WF x) → (∀ g ∈ groups, ∀ x ∈ g, WF x) →
      ranking_loop p none acc groups = some (ranking_spec p acc groups) := by
  intro groups
  induction groups with
  | nil => intro acc p _ _ _; rfl
  | cons g rest ih =>
    intro acc p hinv hacc hgr
    have hpool : ∀ x ∈ acc ++ g, WF x := by
      intro x hx
      rcases List.mem_append.mp hx with h2 | h2
      · exact hacc x h2
      · exact hgr g (by simp) x h2
    have hwfpairs : ∀ pr ∈ scan_pairs (acc ++ g),
        (sort_pair pr.1 pr.2).isSome := by
      intro pr hpr
      obtain ⟨h1, h2⟩ := scan_pairs_mem hpr
      rw [sort_pair_eq_canonV (hpool _ h1) (hpool _ h2)]
      rfl
    have hts : try_to_generate_next_round p (acc ++ g) =
        try_scan p (scan_pairs (acc ++ g)) := rfl
    have hrest : ∀ g2 ∈ rest, ∀ x ∈ g2, WF x :=
      fun g2 h2 => hgr g2 (by simp [h2])
    cases hfu : first_unplayed p (scan_pairs (acc ++ g)) with
    | none =>
      have hts2 : try_to_generate_next_round p (acc ++ g) = some (none, p) := by
        rw [hts, try_scan_fu hwfpairs, hfu]
      simp only [ranking_loop, hts2, ranking_spec, hfu]
      exact ih (acc ++ g) p hinv hpool hrest
    | some mt =>
      cases hfm : generate_round_configuration_from_match p mt with
      | none =>
        have hts2 : try_to_generate_next_round p (acc ++ g) =
            some (none, p) := by
          rw [hts, try_scan_fu hwfpairs]
          simp only [hfu, hfm]
        simp only [ranking_loop, hts2, ranking_spec, hfu, hfm]
        exact ih (acc ++ g) p hinv hpool hrest
      | some cp =>
        obtain ⟨c, p2⟩ := cp
        have hts2 : try_to_generate_next_round p (acc ++ g) =
            some (some c, p2) := by
          rw [hts, try_scan_fu hwfpairs]
          simp only [hfu, hfm]
        have hne : ¬ c = ∅ := ((from_match_step hinv hfm).1).2.2.2.1
        simp only [ranking_loop, hts2, if_neg hne, ranking_spec, hfu, hfm]

theorem insert_le_perm {α : Type} (le : α → α → Bool) (a : α) :
    ∀ l : List α, List.Perm (insert_le le a l) (a :: l) := by
  intro l
  induction l with
  | nil => exact List.Perm.refl _
  | cons b bs ih =>
    by_cases h : le a b = true
    · simp only [insert_le, if_pos h]
      exact List.Perm.refl _
    · simp only [insert_le, if_neg h]
      exact (ih.cons b).trans (List.Perm.swap a b bs)

theorem sort_stable_perm {α : Type} (le : α → α → Bool) :
    ∀ l : List α, List.Perm (sort_stable le l) l := by
  intro l
  induction l with
  | nil => exact List.Perm.refl _
  | cons a rest ih =>
    exact (insert_le_perm le a (sort_stable le rest)).trans (ih.cons a)

theorem insert_le_pairwise {α : Type} {le : α → α → Bool}
    (htot : ∀ a b, le a b = true ∨ le b a = true)
    (htrans : ∀ a b c, le a b = true → le b c = true → le a c = true)
    (a : α) :
    ∀ l : List α, List.Pairwise (fun x y => le x y = true) l →
      List.Pairwise (fun x y => le x y = true) (insert_le le a l) := by
  intro l
  induction l with
  | nil => intro _; simp [insert_le]
  | cons b bs ih =>
    intro h
    obtain ⟨hb, hbs⟩ := List.pairwise_cons.mp h
    by_cases hab : le a b = true
    · simp only [insert_le, if_pos hab]
      refine List.pairwise_cons.mpr ⟨?_, h⟩
      intro x hx
      rcases List.mem_cons.mp hx with rfl | hx2
      · exact hab
      · exact htrans a b x hab (hb x hx2)
    · simp only [insert_le, if_neg hab]
      have hba : le b a = true := (htot a b).resolve_left hab
      refine List.pairwise_cons.mpr ⟨?_, ih hbs⟩
      intro x hx
      have hx2 := (insert_le_perm le a bs).mem_iff.mp hx
      rcases List.mem_cons.mp hx2 with rfl | hx3
      · exact hba
      · exact hb x hx3

theorem sort_stable_pairwise {α : Type} {le : α → α → Bool}
    (htot : ∀ a b, le a b = true ∨ le b a = true)
    (htrans : ∀ a b c, le a b = true → le b c = true → le a c = true) :
    ∀ l : List α, List.Pairwise (fun x y => le x y = true) (sort_stable le l) := by
  intro l
  induction l with
  | nil => simp [sort_stable]
  | cons a rest ih => exact insert_le_pairwise htot htrans a _ ih

/-- C6: ranking-weighted selection with parseable rank keys processes the
rank groups in ascending numeric key order (the stable sort of the ranking
by integer key: its output is sorted by key and a permutation of the keyed
ranking), accumulating each group into the pool in order, and equals the
spec-level algorithm `ranking_spec`: at each stage scan the pool's ordered
pairs, canonicalize, and on the first pair not in the played memory select
the entire configuration containing it via the anchor-based selection,
returning immediately on success; if all groups are accumulated and no
unplayed pair yields a configuration, no result is returned. -/
theorem C6_ranking_algorithm (p : Pairing) (hinv : Inv p)
    (r : List (String × List String)) (keyed : List (Int × List String))
    (hk : r.mapM (fun kv => (py_int kv.1).map fun n => (n, kv.2)) = some keyed)
    (hwfg : ∀ kv ∈ keyed, ∀ x ∈ kv.2, WF x) :
    List.Pairwise (fun x y => (decide (x.1 ≤ y.1) : Bool) = true)
      (sort_stable (fun x y => decide (x.1 ≤ y.1)) keyed) ∧
    List.Perm (sort_stable (fun x y => decide (x.1 ≤ y.1)) keyed) keyed ∧
    generate_next_round_from_ranking p r =
      some (ranking_spec p []
        ((sort_stable (fun x y => decide (x.1 ≤ y.1)) keyed).map (·.2))) := by
  refine ⟨?_, sort_stable_perm _ keyed, ?_⟩
  · apply sort_stable_pairwise
    · intro a b
      rcases le_total a.1 b.1 with h | h
      · exact Or.inl (by simpa using h)
      · exact Or.inr (by simpa using h)
    · intro a b c hab hbc
      simp only [decide_eq_true_eq] at hab hbc ⊢
      exact le_trans hab hbc
  · unfold generate_next_round_from_ranking
    rw [hk]
    apply ranking_loop_eq_spec _ _ _ hinv (by simp)
    intro g hg x hx
    obtain ⟨kv, hkv, rfl⟩ := List.mem_map.mp hg
    exact hwfg kv ((sort_stable_perm _ keyed).mem_iff.mp hkv) x hx

theorem C6_ranking_algorithm_witness :
    List.Pairwise (fun x y => (decide (x.1 ≤ y.1) : Bool) = true)
      (sort_stable (fun x y => decide (x.1 ≤ y.1))
        [((1 : Int), ["p_1"]), (2, ["p_2"]), (3, ["p_4"]), (4, ["p_3"])]) ∧
    List.Perm
      (sort_stable (fun x y => decide (x.1 ≤ y.1))
        [((1 : Int), ["p_1"]), (2, ["p_2"]), (3, ["p_4"]), (4, ["p_3"])])
      [((1 : Int), ["p_1"]), (2, ["p_2"]), (3, ["p_4"]), (4, ["p_3"])] ∧
    generate_next_round_from_ranking st1 rank4 =
      some (ranking_spec st1 []
        ((sort_stable (fun x y => decide (x.1 ≤ y.1))
          [((1 : Int), ["p_1"]), (2, ["p_2"]), (3, ["p_4"]), (4, ["p_3"])]).map
            (·.2))) :=
  C6_ranking_algorithm st1 (by decide) rank4
    [((1 : Int), ["p_1"]), (2, ["p_2"]), (3, ["p_4"]), (4, ["p_3"])]
    (by decide) (by decide)

end ChessPairing
